import Mathlib

/-!
# Split embedding backward, CPU template for approximate optimizers

A shallow embedding of
`fbgemm_gpu/codegen/embedding_backward_split_cpu_approx_template.cpp`
(`split_embedding_backward_codegen_{{ optimizer }}_cpu`).

Modelling conventions.

* Floating-point scalars are exact rationals (`ℚ`); rounding is not modelled.
* `int64_t` values are unbounded integers; the narrowing to `int` that the
  fused branch performs is modelled by `to_int` (two's-complement wrap to 32 bits).
  C++ `/` and `%` on integers are `Int.tdiv` and `Int.tmod` (truncation toward zero).
* Tensors are lists; a read outside a buffer (undefined in the source) yields `0`.
* The template holes are parameters: `{{ optimizer }}` is a string,
  `{{ split_weight_update_cpu }}` is a function `upd` on an abstract buffer state `σ`
  (weight arena plus optimizer-state buffers), and the JIT kernel returned by
  `fbgemm::GenerateRowWiseSparseAdaGradFused` is a function `kernel`.
* `at::parallel_for` is modelled sequentially: its chunks are run one after the other.
-/

namespace SplitEmbeddingBackward

/-! ## Data model -/

/-- The element types the function distinguishes; `Other` stands for every
ATen scalar type that is neither `Float`, `Double` nor `Half`. -/
inductive ScalarType
  | Float
  | Double
  | Half
  | Other
  deriving DecidableEq

/-- A two-dimensional tensor: its second extent `size(1)` and its rows. -/
structure Tensor2 where
  size1 : Int
  rows : List (List ℚ)

/-- The arguments of `split_embedding_backward_codegen_{{ optimizer }}_cpu` that the
body reads (`max_D`, `total_hash_size_bits` and `weights_placements` are never read).
The data of `host_weights` and of the optimizer-state tensors lives in the buffer
state `σ`; here only its rank and element type appear. `momentum1_offsets`, `eps`
and `learning_rate` are the `split_function_args` the rowwise-adagrad branch names. -/
structure Args where
  grad_output : Tensor2
  grad_output_type : ScalarType
  host_weights_dim : Int
  host_weights_type : ScalarType
  weights_offsets : List Int
  D_offsets : List Int
  hash_size_cumsum : List Int
  indices : List Int
  offsets : List Int
  pooling_mode : Int
  indice_weights : Option (List ℚ)
  stochastic_rounding : Bool
  momentum1_offsets : List Int
  eps : ℚ
  learning_rate : ℚ

/-- Modelled from the spec: the pooling-mode constant `MEAN` of the enumeration
`{SUM, MEAN}` (section 6), declared in a header the template includes. -/
def MEAN : Int := 1

/-- Modelled from the spec: the pooling-mode constant `SUM`, declared next to `MEAN`. -/
def SUM : Int := 0

/-- Element `i` of a flat buffer, `data[i]`. -/
def rd {α : Type} [Inhabited α] (data : List α) (i : Int) : α :=
  if i < 0 then default else data.getD i.toNat default

/-- Element `[b][j]` of a two-dimensional accessor. -/
def rd2 (g : Tensor2) (b j : Int) : ℚ :=
  if b < 0 then 0 else rd (g.rows.getD b.toNat []) j

/-- The values `lo, lo+1, ..., hi-1` a loop `for (x = lo; x < hi; ++x)` visits. -/
def int_range (lo hi : Int) : List Int :=
  (List.range (hi - lo).toNat).map (fun (i : Nat) => lo + (i : Int))

/-- The loop `for (x = lo; x < hi; ++x) body`, threading the state through. -/
def for_loop {σ : Type} (lo hi : Int) (body : σ → Int → σ) (st : σ) : σ :=
  (int_range lo hi).foldl body st

/-! ## The generic path (source lines 121-170) -/

/-- One execution of `{{ split_weight_update_cpu }}`: the loop variables in scope
and the value `grad_val` computed just before it. -/
structure UpdateSite where
  t : Int
  b : Int
  p : Int
  d : Int
  embedding_begin : Int
  grad_val : ℚ
  deriving DecidableEq

/-- The scalar offset `embedding_begin + d` of the weight arena a site addresses. -/
def UpdateSite.offset (s : UpdateSite) : Int := s.embedding_begin + s.d

/-- The condition of the conditional expression on source lines 150-151:
`pooling_mode == MEAN && !indice_weights.defined() && L > 0`. -/
def scale_guard (pooling_mode : Int) (weights_defined : Bool) (L : Int) : Bool :=
  pooling_mode == MEAN && !weights_defined && decide (L > 0)

/-- The value of `scale_factor` (source lines 148-153): the operand `1.0 / L` is
evaluated only when `scale_guard` holds. -/
def scale_factor (pooling_mode : Int) (weights_defined : Bool) (L : Int) : ℚ :=
  if scale_guard pooling_mode weights_defined L then 1 / (L : ℚ) else 1

/-- The value of `grad_val` (source lines 158-162). -/
def grad_val (a : Args) (scale : ℚ) (b p col : Int) : ℚ :=
  scale *
    (match a.indice_weights with
     | some w => rd2 a.grad_output b col * rd w p
     | none => rd2 a.grad_output b col)

/-- The body of the loop over `b` (source lines 145-165): one bag `(t, b)`. -/
def generic_bag {σ : Type} (upd : σ → UpdateSite → σ) (a : Args) (B t D_begin D table_begin : Int)
    (st : σ) (b : Int) : σ :=
  let pool_begin := rd a.offsets (t * B + b)
  let pool_end := rd a.offsets (t * B + b + 1)
  let L := pool_end - pool_begin
  let scale := scale_factor a.pooling_mode a.indice_weights.isSome L
  for_loop pool_begin pool_end
    (fun st p =>
      let embedding_begin := table_begin + rd a.indices p * D
      for_loop 0 D
        (fun st d =>
          upd st ⟨t, b, p, d, embedding_begin, grad_val a scale b p (D_begin + d)⟩)
        st)
    st

/-- The body of the loop over `t` (source lines 140-167): one table. The inner
`at::parallel_for(0, B, 0, ...)` runs its chunks of `[0, B)` one after the other,
which visits `b = 0, ..., B-1` in order. -/
def generic_table {σ : Type} (upd : σ → UpdateSite → σ) (a : Args) (B : Int)
    (st : σ) (t : Int) : σ :=
  let D_begin := rd a.D_offsets t
  let D := rd a.D_offsets (t + 1) - rd a.D_offsets t
  let table_begin := rd a.weights_offsets t
  for_loop 0 B (generic_bag upd a B t D_begin D table_begin) st

/-- The generic loop nest (source lines 139-168). -/
def generic_loop {σ : Type} (upd : σ → UpdateSite → σ) (a : Args) (T B : Int) (st : σ) : σ :=
  for_loop 0 T (generic_table upd a B) st

/-- Conversion of an `int64_t` value to `int`: the value modulo `2^32`, taken in
`[-2^31, 2^31)`. It is the identity on values that fit in 32 bits. -/
def to_int (x : Int) : Int := (x + 2147483648) % 4294967296 - 2147483648

/-- One iteration of the loop over `t` inside the lambda handed to
`at::parallel_for`: the table and the sample sub-range `[b_begin, b_end)`. -/
structure SliceRun where
  t : Int
  b_begin : Int
  b_end : Int
  deriving DecidableEq

/-- The iterations of the lambda on the slice `[tb_begin, tb_end)` (source lines
73-75 and 88-89). `t_begin`, `t_end`, `t`, `b_begin` and `b_end` are declared `int`
in the source, their initialisers are `int64_t` expressions. -/
def fused_slice_runs (B tb_begin tb_end : Int) : List SliceRun :=
  let t_begin := to_int (tb_begin.tdiv B)
  let t_end := to_int ((tb_end + B - 1).tdiv B)
  (int_range t_begin t_end).map fun t =>
    let b_begin := to_int (if t = t_begin then tb_begin.tmod B else 0)
    let b_end := to_int (if t = t_end - 1 ∧ tb_end.tmod B ≠ 0 then tb_end.tmod B else B)
    { t := t, b_begin := b_begin, b_end := b_end }

/-- The loop `do { hash_size = cumsum[t_temp] - cumsum[t]; ++t_temp; } while (hash_size == 0)`
(source lines 83-86), run over the entries of `hash_size_cumsum` from position
`t + 1` on; `base` is `cumsum[t]`. The result is `none` when the loop runs past the
last entry (a read outside the buffer). -/
def hash_size_scan (base : Int) : List Int → Option Int
  | [] => none
  | x :: rest => if x - base = 0 then hash_size_scan base rest else some (x - base)

/-- The value of `hash_size` for table `t` (source lines 81-86). -/
def hash_size_of (cumsum : List Int) (t : Int) : Option Int :=
  if t < 0 then none else hash_size_scan (rd cumsum t) (cumsum.drop (t + 1).toNat)

/-- The positions of `hash_size_cumsum` that the loop on source lines 83-86 reads
through `t_temp`, in order, starting at position `pos` with the entries from there
on; when the entries run out the last position read lies past the last entry, and
the model stops there. -/
def hash_size_scan_reads (base : Int) (pos : Int) : List Int → List Int
  | [] => [pos]
  | x :: rest =>
    if x - base = 0 then pos :: hash_size_scan_reads base (pos + 1) rest else [pos]

/-- The positions of `hash_size_cumsum` read while `hash_size` of table `t` is
computed (source lines 81-86): `t` itself and the positions `t_temp` takes. -/
def hash_size_reads (cumsum : List Int) (t : Int) : List Int :=
  t :: hash_size_scan_reads (rd cumsum t) (t + 1) (cumsum.drop (t + 1).toNat)

/-- The arguments of one kernel run: the two parameters the kernel is generated
from that vary (`D` and `grad_stride`; `prefetch = 16`, `use_offsets = true` and
`use_stochastic_round = true` are constants) and the ten arguments of the call
(source lines 100-112). Pointers are positions in their buffers. -/
structure KernelCall where
  block_size : Int
  grad_stride : Int
  output_size : Int
  index_size : Int
  data_size : Int
  weights_at : Int
  grad_at : Int
  momentum_at : Int
  indices_at : Int
  offsets_at : Int
  epsilon : ℚ
  lr : ℚ
  deriving DecidableEq

/-- The kernel arguments of one iteration (source lines 76-112); `none` when the
scan for `hash_size` leaves `hash_size_cumsum`. -/
def kernel_call (a : Args) (B grad_stride : Int) (r : SliceRun) : Option KernelCall :=
  let D_begin := rd a.D_offsets r.t
  let D := rd a.D_offsets (r.t + 1) - rd a.D_offsets r.t
  let table_begin := rd a.weights_offsets r.t
  let momentum_begin := rd a.momentum1_offsets r.t
  match hash_size_of a.hash_size_cumsum r.t with
  | none => none
  | some hash_size =>
    let offsets_begin := r.t * B + r.b_begin
    let index_size := rd a.offsets (r.t * B + r.b_end) - rd a.offsets offsets_begin
    some
      { block_size := D, grad_stride := grad_stride,
        output_size := r.b_end - r.b_begin, index_size := index_size, data_size := hash_size,
        weights_at := table_begin, grad_at := r.b_begin * grad_stride + D_begin,
        momentum_at := momentum_begin, indices_at := rd a.offsets offsets_begin,
        offsets_at := offsets_begin, epsilon := a.eps, lr := -a.learning_rate }

/-- The positions of `offsets_data` that one iteration reads (source lines 98-99 and
108): `t * B + b_begin` through `offsets_begin_ptr`, and `t * B + b_end`. -/
def kernel_call_offsets_reads (B : Int) (r : SliceRun) : List Int :=
  [r.t * B + r.b_begin, r.t * B + r.b_end]

/-- The checks that can fail: the three `TORCH_CHECK`s at the head of the function,
the type dispatch of the generic path, and `TORCH_CHECK(success)`. -/
inductive Err
  | check_T
  | check_B
  | check_dim
  | not_implemented
  | check_success
  deriving DecidableEq

/-- Operations without defined behaviour that the model tracks. -/
inductive Undefined
  | div_by_zero
  | read_out_of_bounds
  deriving DecidableEq

/-- The outcome of a call: normal return, a raised error (with the buffer state at
that point: nothing is rolled back), or undefined behaviour. -/
inductive Result (σ : Type)
  | done (st : σ)
  | failed (e : Err) (st : σ)
  | undefined (u : Undefined)
  deriving DecidableEq

/-- The iterations of one slice, in order (source lines 75-114): each runs the
kernel and stops the slice when `success` is false. -/
def fused_runs {σ : Type} (kernel : KernelCall → σ → Bool × σ) (a : Args)
    (B grad_stride : Int) : List SliceRun → σ → Result σ
  | [], st => .done st
  | r :: rest, st =>
    match kernel_call a B grad_stride r with
    | none => .undefined .read_out_of_bounds
    | some c =>
      match kernel c st with
      | (true, st1) => fused_runs kernel a B grad_stride rest st1
      | (false, st1) => .failed .check_success st1

/-- The lambda handed to `at::parallel_for` (source lines 72-115). -/
def fused_slice {σ : Type} (kernel : KernelCall → σ → Bool × σ) (a : Args)
    (B grad_stride tb_begin tb_end : Int) (st : σ) : Result σ :=
  fused_runs kernel a B grad_stride (fused_slice_runs B tb_begin tb_end) st

/-- Modelled from the spec: `at::parallel_for` (an ATen primitive; section 5: the
call blocks until all workers complete, without cancellation) on the chunks `slices`
it cut the range into, run here one after the other. A chunk that raises stops; the
remaining chunks still run, and the first error is raised when all chunks are
finished. -/
def parallel_for {σ : Type} (f : Int → Int → σ → Result σ) :
    List (Int × Int) → σ → Result σ
  | [], st => .done st
  | (x, y) :: rest, st =>
    match f x y st with
    | .done st1 => parallel_for f rest st1
    | .failed e st1 =>
      match parallel_for f rest st1 with
      | .done st2 => .failed e st2
      | .failed _ st2 => .failed e st2
      | .undefined u => .undefined u
    | .undefined u => .undefined u

/-! ## The entry point (source lines 39-64, 121-136) -/

/-- The division of two `int64_t` values; by zero it is not defined. -/
def int64_div (x y : Int) : Option Int :=
  if y = 0 then none else some (x.tdiv y)

/-- The value of `use_fbgemm` (source lines 60-63). -/
def use_fbgemm (host_weights_type grad_output_type : ScalarType) : Bool :=
  host_weights_type == .Float && grad_output_type == .Float

/-- Modelled from the spec: the types `AT_DISPATCH_FLOATING_TYPES` accepts, the
standard floating formats (the macro is ATen's). -/
def floating_types (ty : ScalarType) : Bool :=
  ty == .Float || ty == .Double

/-- Modelled from the spec: the types `AT_DISPATCH_FLOATING_TYPES_AND_HALF` accepts,
the standard floating formats plus the half-precision format. -/
def floating_types_and_half (ty : ScalarType) : Bool :=
  ty == .Float || ty == .Double || ty == .Half

/-- The code a call runs after the three checks. -/
inductive Path
  | fused
  | generic
  | not_implemented
  deriving DecidableEq

/-- The path selection: the `use_fbgemm` branch exists only in the instance of the
template for `approx_rowwise_adagrad` (source lines 57-64); otherwise the two nested
type dispatches lead to the generic loop (source lines 124-136) or raise. -/
def select_path (optimizer : String) (host_weights_type grad_output_type : ScalarType) : Path :=
  if optimizer = "approx_rowwise_adagrad" ∧ use_fbgemm host_weights_type grad_output_type = true then
    .fused
  else if floating_types grad_output_type = true then
    if floating_types_and_half host_weights_type = true then .generic else .not_implemented
  else .not_implemented

/-- The value of `T` (source line 39). -/
def T_of (a : Args) : Int := (a.D_offsets.length : Int) - 1

/-- The value of `B` (source line 42), for `T` not zero. -/
def B_of (a : Args) : Int := ((a.offsets.length : Int) - 1).tdiv (T_of a)

/-- The function `split_embedding_backward_codegen_{{ optimizer }}_cpu`. The
accessors on source lines 45-53 and the `data_ptr` calls on lines 66-70 are taken on
tensors of the rank and element type they ask for. `slices` are the chunks of `[0, T * B)` that `at::parallel_for` forms
in the fused branch. -/
def split_embedding_backward_codegen_cpu {σ : Type} (optimizer : String) (upd : σ → UpdateSite → σ)
    (kernel : KernelCall → σ → Bool × σ) (slices : List (Int × Int)) (a : Args) (st : σ) :
    Result σ :=
  let T := (a.D_offsets.length : Int) - 1
  if ¬ T > 0 then .failed .check_T st
  else
    match int64_div ((a.offsets.length : Int) - 1) T with
    | none => .undefined .div_by_zero
    | some B =>
      if ¬ B > 0 then .failed .check_B st
      else if ¬ a.host_weights_dim = 1 then .failed .check_dim st
      else
        match select_path optimizer a.host_weights_type a.grad_output_type with
        | .fused => parallel_for (fused_slice kernel a B a.grad_output.size1) slices st
        | .generic => .done (generic_loop upd a T B st)
        | .not_implemented => .failed .not_implemented st

/-! ## The specification's description of the generic path -/

/-- The site of table `t`, sample `b`, index position `p` and dimension `d` in the
words of the specification (section 4.3): the value
`scale_factor * output_gradient[b][D_begin_t + d] * (index_weight[p] or 1)`, applied
at scalar offset `W_t + indices[p] * D_t + d`, where `D_begin_t = dim_cumulative[t]`,
`D_t = dim_cumulative[t+1] - dim_cumulative[t]` and `W_t = weight_offsets[t]`. -/
def spec_site (a : Args) (B t b p d : Int) : UpdateSite :=
  { t := t, b := b, p := p, d := d,
    embedding_begin :=
      rd a.weights_offsets t + rd a.indices p * (rd a.D_offsets (t + 1) - rd a.D_offsets t),
    grad_val :=
      scale_factor a.pooling_mode a.indice_weights.isSome
          (rd a.offsets (t * B + b + 1) - rd a.offsets (t * B + b))
        * rd2 a.grad_output b (rd a.D_offsets t + d)
        * (match a.indice_weights with
           | some w => rd w p
           | none => 1) }

/-- The sites of one bag `(t, b)`: every index position `p` in `[pool_begin, pool_end)`
and every dimension `d` in `[0, D_t)`. -/
def spec_bag_sites (a : Args) (B t b : Int) : List UpdateSite :=
  (int_range (rd a.offsets (t * B + b)) (rd a.offsets (t * B + b + 1))).flatMap fun p =>
    (int_range 0 (rd a.D_offsets (t + 1) - rd a.D_offsets t)).map fun d =>
      spec_site a B t b p d

/-- The sites of a whole call: every table `t` in `[0, T)` and sample `b` in `[0, B)`. -/
def spec_update_sites (a : Args) (T B : Int) : List UpdateSite :=
  (int_range 0 T).flatMap fun t =>
    (int_range 0 B).flatMap fun b =>
      spec_bag_sites a B t b

/-! ## Scenarios of the specification (section 8) -/

/-- Scenario A: one table, `D = 4`, `B = 2`, bags `[2]` and `[0, 5]`, SUM pooling,
no index weights, an arbitrary output gradient `g`. -/
def scenarioA (g : Tensor2) : Args :=
  { grad_output := g, grad_output_type := .Float,
    host_weights_dim := 1, host_weights_type := .Float,
    weights_offsets := [0], D_offsets := [0, 4], hash_size_cumsum := [0, 6],
    indices := [2, 0, 5], offsets := [0, 1, 3], pooling_mode := SUM,
    indice_weights := none, stochastic_rounding := false,
    momentum1_offsets := [0], eps := 0, learning_rate := 1 }

/-- Scenario B: the layout of Scenario A under MEAN pooling. -/
def scenarioB (g : Tensor2) : Args :=
  { scenarioA g with pooling_mode := MEAN }

/-- Scenario C: the layout of Scenario A under MEAN pooling with per-index weights;
the two entries of bag `b = 1` carry `0.3` and `0.7`, the entry of bag `b = 0`
carries an arbitrary weight `w0`. -/
def scenarioC (g : Tensor2) (w0 : ℚ) : Args :=
  { scenarioA g with pooling_mode := MEAN, indice_weights := some [w0, 3 / 10, 7 / 10] }

/-- An update rule that only records the sites it is run at, in order. -/
def record (st : List UpdateSite) (s : UpdateSite) : List UpdateSite := st ++ [s]

/-- An update rule on a weight arena `Int → ℚ` that writes only the scalar at the
offset it is given (plain gradient descent with step 1). -/
def sgd_step (w : Int → ℚ) (s : UpdateSite) : Int → ℚ :=
  Function.update w s.offset (w s.offset - s.grad_val)

/-! ## Notions used in the statements -/

/-- The dimension `D_t = dim_cumulative[t+1] - dim_cumulative[t]` of table `t`
(source line 141). -/
def D_of (a : Args) (t : Int) : Int := rd a.D_offsets (t + 1) - rd a.D_offsets t

/-- The weight offset `W_t = weight_offsets[t]` of table `t` (source line 142). -/
def W_of (a : Args) (t : Int) : Int := rd a.weights_offsets t

/-- The index positions `[pool_begin, pool_end)` of bag `(t, b)` (source lines 145-146). -/
def bag_positions (a : Args) (B t b : Int) : List Int :=
  int_range (rd a.offsets (t * B + b)) (rd a.offsets (t * B + b + 1))

/-- The length `L = pool_end - pool_begin` of bag `(t, b)` (source lines 145-147). -/
def bag_length (a : Args) (B t b : Int) : Int :=
  rd a.offsets (t * B + b + 1) - rd a.offsets (t * B + b)

/-- The sum of the bag lengths over all tables `t` in `[0, T)` and samples `b` in `[0, B)`. -/
def total_bag_length (a : Args) (T B : Int) : Int :=
  ((int_range 0 T).map fun t => ((int_range 0 B).map fun b => bag_length a B t b).sum).sum

/-- The three checks at the head of the entry point pass (source lines 40, 43, 55). -/
def accepted (a : Args) : Prop :=
  0 < T_of a ∧ 0 < B_of a ∧ a.host_weights_dim = 1

instance (a : Args) : Decidable (accepted a) :=
  inferInstanceAs (Decidable (0 < T_of a ∧ 0 < B_of a ∧ a.host_weights_dim = 1))

/-- The sequence is non-decreasing: each entry is at most the next one. -/
def nondecreasing (xs : List Int) : Prop :=
  ∀ i ∈ int_range 0 ((xs.length : Int) - 1), rd xs i ≤ rd xs (i + 1)

instance (xs : List Int) : Decidable (nondecreasing xs) :=
  inferInstanceAs (Decidable (∀ i ∈ int_range 0 ((xs.length : Int) - 1), rd xs i ≤ rd xs (i + 1)))

/-- An input the entry point accepts, with non-decreasing bag offsets `[0, 1]` that
cover only the first of its three indices. -/
def short_offsets_args : Args :=
  { scenarioA ⟨4, [[1, 2, 3, 4]]⟩ with offsets := [0, 1] }

/-- Two tables and four bag offsets: `len(bag_offsets) - 1 = 3` is not a multiple of
`T = 2`. -/
def ragged_offsets_args : Args :=
  { grad_output := ⟨2, [[1, 2]]⟩, grad_output_type := .Float,
    host_weights_dim := 1, host_weights_type := .Double,
    weights_offsets := [0, 3], D_offsets := [0, 1, 2], hash_size_cumsum := [0, 3, 6],
    indices := [2, 0, 1], offsets := [0, 1, 2, 3], pooling_mode := SUM,
    indice_weights := none, stochastic_rounding := false,
    momentum1_offsets := [0, 3], eps := 0, learning_rate := 1 }

/-- A kernel that writes nothing and reports success. -/
def idle_kernel {σ : Type} (_ : KernelCall) (st : σ) : Bool × σ := (true, st)

/-- An input with a single entry in `D_offsets`, hence `T = 0`. -/
def no_table_args : Args :=
  { scenarioA ⟨4, []⟩ with D_offsets := [0] }

/-- Scenario A with half-precision weight and gradient storage. -/
def half_args : Args :=
  { scenarioA ⟨4, [[1, 2, 3, 4], [5, 6, 7, 8]]⟩ with
    grad_output_type := .Half, host_weights_type := .Half }

/-- The `(table, sample)` pairs one run covers: `(t, b)` for `b` in `[b_begin, b_end)`. -/
def run_pairs (r : SliceRun) : List (Int × Int) :=
  (int_range r.b_begin r.b_end).map fun b => (r.t, b)

/-- The pairs the lambda enumerates on the slice `[tb_begin, tb_end)`, run by run. -/
def slice_pairs (B tb_begin tb_end : Int) : List (Int × Int) :=
  (fused_slice_runs B tb_begin tb_end).flatMap run_pairs

/-- The chunks `slices` split `[lo, hi)` into consecutive slices. -/
def is_split : Int → Int → List (Int × Int) → Prop
  | lo, hi, [] => lo = hi
  | lo, hi, (x, y) :: rest => x = lo ∧ lo ≤ y ∧ is_split y hi rest

instance decidable_is_split : (lo hi : Int) → (slices : List (Int × Int)) →
    Decidable (is_split lo hi slices)
  | lo, hi, [] => inferInstanceAs (Decidable (lo = hi))
  | lo, hi, (x, y) :: rest =>
    have := decidable_is_split y hi rest
    inferInstanceAs (Decidable (x = lo ∧ lo ≤ y ∧ is_split y hi rest))

/-- An input with two tables (`D = 1` with 4 rows at offset 0, `D = 2` with 3 rows at
offset 4), `B = 2`, and the bags `[2]`, `[0, 3]`, `[]`, `[1, 1, 2]`. -/
def two_table_args : Args :=
  { grad_output := ⟨3, [[1, 2, 3], [4, 5, 6]]⟩, grad_output_type := .Float,
    host_weights_dim := 1, host_weights_type := .Float,
    weights_offsets := [0, 4], D_offsets := [0, 1, 3], hash_size_cumsum := [0, 4, 7],
    indices := [2, 0, 3, 1, 1, 2], offsets := [0, 1, 3, 3, 6], pooling_mode := SUM,
    indice_weights := none, stochastic_rounding := false,
    momentum1_offsets := [0, 4], eps := 1 / 100, learning_rate := 1 / 10 }

/-- The buffer state after the kernel has run on each of the runs in turn, whatever
flag it returned (a run without kernel arguments is skipped). -/
def apply_runs {σ : Type} (kernel : KernelCall → σ → Bool × σ) (a : Args)
    (B grad_stride : Int) : List SliceRun → σ → σ
  | [], st => st
  | r :: rest, st =>
    match kernel_call a B grad_stride r with
    | none => apply_runs kernel a B grad_stride rest st
    | some c => apply_runs kernel a B grad_stride rest (kernel c st).2

/-- Every one of the runs, executed in turn from the state `st`, has kernel
arguments and returns `true`. -/
def all_succeed {σ : Type} (kernel : KernelCall → σ → Bool × σ) (a : Args)
    (B grad_stride : Int) : List SliceRun → σ → Bool
  | [], _ => true
  | r :: rest, st =>
    match kernel_call a B grad_stride r with
    | none => false
    | some c => (kernel c st).1 && all_succeed kernel a B grad_stride rest (kernel c st).2

/-- The kernel with a log of the calls made to it next to the buffers. -/
def logged {σ : Type} (kernel : KernelCall → σ → Bool × σ) (c : KernelCall)
    (s : σ × List KernelCall) : Bool × (σ × List KernelCall) :=
  ((kernel c s.1).1, ((kernel c s.1).2, s.2 ++ [c]))

/-- A kernel on a buffer state that lists the bases written: it writes the weight
base of each call and reports failure for every table but the one at offset 0. -/
def picky_kernel (c : KernelCall) (st : List Int) : Bool × List Int :=
  (decide (c.weights_at = 0), st ++ [c.weights_at])

/-- The runs of a whole call, slice after slice, for the chunks `slices`. -/
def call_runs (a : Args) (slices : List (Int × Int)) : List SliceRun :=
  slices.flatMap fun s => fused_slice_runs (B_of a) s.1 s.2

/-- An update rule that leaves the buffer state as it is. -/
def no_update {σ : Type} (st : σ) (_ : UpdateSite) : σ := st

/-- The input `two_table_args` under MEAN pooling, with index weights and with
stochastic rounding requested. -/
def two_table_mean_args : Args :=
  { two_table_args with
    pooling_mode := MEAN, indice_weights := some [1, 2, 3, 4, 5, 6],
    stochastic_rounding := true }

/-- Two tables with `D = 1` and `B = 1`: table 0 has 5 rows and the bag `[2]`, table
1, the last one, has no rows and an empty bag. -/
def trailing_empty_args : Args :=
  { grad_output := ⟨2, [[1, 2]]⟩, grad_output_type := .Float,
    host_weights_dim := 1, host_weights_type := .Float,
    weights_offsets := [0, 5], D_offsets := [0, 1, 2], hash_size_cumsum := [0, 5, 5],
    indices := [2], offsets := [0, 1, 1], pooling_mode := SUM,
    indice_weights := none, stochastic_rounding := false,
    momentum1_offsets := [0, 5], eps := 0, learning_rate := 1 }

/-- The input `a` with another pooling mode and other index weights, everything else
the same. -/
def with_pooling (a : Args) (pooling_mode : Int) (indice_weights : Option (List ℚ)) : Args :=
  { a with pooling_mode := pooling_mode, indice_weights := indice_weights }

/-- A gradient of shape `[2, 4]` with the entries 1 to 8. -/
def sample_gradient : Tensor2 := ⟨4, [[1, 2, 3, 4], [5, 6, 7, 8]]⟩

/-- A kernel on the weight arena `Int → ℚ` that, whatever its arguments, applies to
the arena the SUM-pooled plain-descent update of Scenario A with `sample_gradient`:
on that input it leaves the arena as the generic loop does. -/
def sum_pooled_kernel (_ : KernelCall) (w : Int → ℚ) : Bool × (Int → ℚ) :=
  (true, generic_loop sgd_step (scenarioA sample_gradient) 1 2 w)

/-! ## Lemmas on loops -/

theorem foldl_flatMap {α β σ : Type} (f : α → List β) (g : σ → β → σ) (l : List α) (st : σ) :
    (l.flatMap f).foldl g st = l.foldl (fun s x => (f x).foldl g s) st := by
  induction l generalizing st with
  | nil => rfl
  | cons x xs ih => simp [List.flatMap_cons, List.foldl_append, ih]

theorem mem_int_range (lo hi x : Int) : x ∈ int_range lo hi ↔ lo ≤ x ∧ x < hi := by
  unfold int_range
  simp only [List.mem_map, List.mem_range]
  constructor
  · rintro ⟨i, hlt, rfl⟩
    omega
  · rintro ⟨h1, h2⟩
    exact ⟨(x - lo).toNat, by omega, by omega⟩

theorem int_range_empty (lo hi : Int) (h : hi ≤ lo) : int_range lo hi = [] := by
  unfold int_range
  have : (hi - lo).toNat = 0 := by omega
  simp [this]

theorem grad_val_eq (a : Args) (scale : ℚ) (b p col : Int) :
    grad_val a scale b p col
      = scale * rd2 a.grad_output b col
          * (match a.indice_weights with
             | some w => rd w p
             | none => 1) := by
  unfold grad_val
  cases a.indice_weights with
  | none => simp
  | some w => simp [mul_assoc]

/-- The body of the loop over `b`, run on table `t` with the locals of the loop over
`t`, applies the update rule along the bag's sites. -/
theorem generic_bag_eq {σ : Type} (upd : σ → UpdateSite → σ) (a : Args) (B t : Int)
    (st : σ) (b : Int) :
    generic_bag upd a B t (rd a.D_offsets t) (rd a.D_offsets (t + 1) - rd a.D_offsets t)
        (rd a.weights_offsets t) st b
      = (spec_bag_sites a B t b).foldl upd st := by
  simp only [generic_bag, for_loop, spec_bag_sites, spec_site, foldl_flatMap, List.foldl_map,
    grad_val_eq]

theorem generic_table_eq {σ : Type} (upd : σ → UpdateSite → σ) (a : Args) (B : Int)
    (st : σ) (t : Int) :
    generic_table upd a B st t
      = ((int_range 0 B).flatMap fun b => spec_bag_sites a B t b).foldl upd st := by
  rw [foldl_flatMap]
  simp only [generic_table, for_loop]
  congr 1
  funext s b
  exact generic_bag_eq upd a B t s b

theorem generic_loop_eq {σ : Type} (upd : σ → UpdateSite → σ) (a : Args) (T B : Int) (st : σ) :
    generic_loop upd a T B st = (spec_update_sites a T B).foldl upd st := by
  unfold generic_loop for_loop spec_update_sites
  rw [foldl_flatMap]
  congr 1
  funext s t
  exact generic_table_eq upd a B s t

/-- A fold of an update rule that writes only at the offset it is given leaves
every scalar that no site addresses as it was. -/
theorem foldl_frame {σ : Type} (wt : σ → Int → ℚ) (upd : σ → UpdateSite → σ)
    (hupd : ∀ (s : σ) (site : UpdateSite) (k : Int), k ≠ site.offset → wt (upd s site) k = wt s k)
    (k : Int) (sites : List UpdateSite) (hk : ∀ s ∈ sites, s.offset ≠ k) (st : σ) :
    wt (sites.foldl upd st) k = wt st k := by
  induction sites generalizing st with
  | nil => rfl
  | cons s rest ih =>
    rw [List.foldl_cons, ih (fun x hx => hk x (List.mem_cons_of_mem _ hx))]
    exact hupd st s k (fun h => hk s (List.mem_cons_self _ _) h.symm)

/-! ## C1: the update sites of the generic path -/

/-- C1. The generic loop nest runs the per-scalar update exactly at the sites the
specification lists, in the order table, sample, index position, dimension: for any
update rule and any start state its result is the fold of the rule over
`spec_update_sites`, whose entry for `(t, b, p, d)` is `spec_site`. In Scenario A,
with any output gradient `g`, rows 2, 0 and 5 (offsets 8.., 0.., 20..) receive the
unscaled slices of `g[0]`, `g[1]`, `g[1]`. -/
theorem generic_loop_update_sites :
    (∀ (σ : Type) (upd : σ → UpdateSite → σ) (a : Args) (T B : Int) (st : σ),
        generic_loop upd a T B st = (spec_update_sites a T B).foldl upd st)
    ∧ (∀ g : Tensor2,
        (generic_loop record (scenarioA g) 1 2 []).map (fun s => (s.offset, s.grad_val))
          = [(8, rd2 g 0 0), (9, rd2 g 0 1), (10, rd2 g 0 2), (11, rd2 g 0 3),
             (0, rd2 g 1 0), (1, rd2 g 1 1), (2, rd2 g 1 2), (3, rd2 g 1 3),
             (20, rd2 g 1 0), (21, rd2 g 1 1), (22, rd2 g 1 2), (23, rd2 g 1 3)]) := by
  constructor
  · intro σ upd a T B st
    exact generic_loop_eq upd a T B st
  · intro g
    simp [generic_loop, generic_table, generic_bag, for_loop, int_range, List.range_succ,
      scenarioA, rd, record, grad_val, scale_factor, scale_guard, MEAN, SUM,
      UpdateSite.offset]

/-! ## C2: the scale factor -/

/-- C2. The scale factor of a bag of length `L` is `1 / L` when the pooling mode is
MEAN, no index weights are supplied and `L > 0`, and `1` in every other case. In
Scenario B (MEAN, no weights) the bag of length 1 is scaled by 1 and the bag of
length 2 by `1/2`; in Scenario C (MEAN with weights `0.3`, `0.7` on the second bag)
the scale is 1 and each contribution is multiplied by its own weight. -/
theorem scale_factor_cases :
    (∀ (pooling_mode : Int) (weights_defined : Bool) (L : Int),
        scale_factor pooling_mode weights_defined L
          = if pooling_mode = MEAN ∧ weights_defined = false ∧ 0 < L then 1 / (L : ℚ) else 1)
    ∧ scale_factor MEAN false 2 = 1 / 2
    ∧ scale_factor MEAN true 2 = 1
    ∧ (∀ g : Tensor2,
        (generic_loop record (scenarioB g) 1 2 []).map (fun s => (s.offset, s.grad_val))
          = [(8, rd2 g 0 0), (9, rd2 g 0 1), (10, rd2 g 0 2), (11, rd2 g 0 3),
             (0, 1 / 2 * rd2 g 1 0), (1, 1 / 2 * rd2 g 1 1),
             (2, 1 / 2 * rd2 g 1 2), (3, 1 / 2 * rd2 g 1 3),
             (20, 1 / 2 * rd2 g 1 0), (21, 1 / 2 * rd2 g 1 1),
             (22, 1 / 2 * rd2 g 1 2), (23, 1 / 2 * rd2 g 1 3)])
    ∧ (∀ (g : Tensor2) (w0 : ℚ),
        (generic_loop record (scenarioC g w0) 1 2 []).map (fun s => (s.offset, s.grad_val))
          = [(8, rd2 g 0 0 * w0), (9, rd2 g 0 1 * w0),
             (10, rd2 g 0 2 * w0), (11, rd2 g 0 3 * w0),
             (0, rd2 g 1 0 * (3 / 10)), (1, rd2 g 1 1 * (3 / 10)),
             (2, rd2 g 1 2 * (3 / 10)), (3, rd2 g 1 3 * (3 / 10)),
             (20, rd2 g 1 0 * (7 / 10)), (21, rd2 g 1 1 * (7 / 10)),
             (22, rd2 g 1 2 * (7 / 10)), (23, rd2 g 1 3 * (7 / 10))]) := by
  refine ⟨?_, ?_, ?_, ?_, ?_⟩
  · intro pooling_mode weights_defined L
    unfold scale_factor scale_guard
    by_cases h1 : pooling_mode = MEAN <;> by_cases h2 : weights_defined = false <;>
      by_cases h3 : 0 < L <;> simp [h1, h2, h3]
  · simp [scale_factor, scale_guard]
  · simp [scale_factor, scale_guard]
  · intro g
    simp [generic_loop, generic_table, generic_bag, for_loop, int_range, List.range_succ,
      scenarioB, scenarioA, rd, record, grad_val, scale_factor, scale_guard, MEAN,
      UpdateSite.offset]
  · intro g w0
    simp [generic_loop, generic_table, generic_bag, for_loop, int_range, List.range_succ,
      scenarioC, scenarioA, rd, record, grad_val, scale_factor, scale_guard, MEAN,
      UpdateSite.offset]

/-! ## C3: empty bags -/

/-- C3. For an empty bag (`pool_begin = pool_end`) under MEAN pooling the guard of
the conditional is false, so the operand `1.0 / L` is not evaluated and the scale
factor is 1; processing the bag runs the per-scalar update zero times (the recording
rule records nothing), and for every update rule the buffer state after the bag is
the state before it. -/
theorem empty_bag_no_update {σ : Type} (upd : σ → UpdateSite → σ) (a : Args)
    (B t D_begin D table_begin b : Int) (st : σ) (sites : List UpdateSite)
    (hmean : a.pooling_mode = MEAN)
    (hempty : rd a.offsets (t * B + b) = rd a.offsets (t * B + b + 1)) :
    scale_guard a.pooling_mode a.indice_weights.isSome
        (rd a.offsets (t * B + b + 1) - rd a.offsets (t * B + b)) = false
    ∧ scale_factor a.pooling_mode a.indice_weights.isSome
        (rd a.offsets (t * B + b + 1) - rd a.offsets (t * B + b)) = 1
    ∧ generic_bag record a B t D_begin D table_begin sites b = sites
    ∧ generic_bag upd a B t D_begin D table_begin st b = st := by
  have hL : rd a.offsets (t * B + b + 1) - rd a.offsets (t * B + b) = 0 := by omega
  refine ⟨?_, ?_, ?_, ?_⟩
  · rw [hmean, hL]
    simp [scale_guard]
  · rw [hmean, hL]
    simp [scale_factor, scale_guard]
  · simp [generic_bag, for_loop, hempty, int_range_empty]
  · simp [generic_bag, for_loop, hempty, int_range_empty]

/-- Witness for C3: in the layout of Scenario A with offsets `[0, 1, 1]` the bag
`(0, 1)` is empty. -/
theorem empty_bag_no_update_witness :
    scale_guard MEAN false (1 - 1) = false
    ∧ scale_factor MEAN false (1 - 1) = 1
    ∧ generic_bag record { scenarioB ⟨4, []⟩ with offsets := [0, 1, 1] } 2 0 0 4 0 [] 1 = []
    ∧ generic_bag sgd_step { scenarioB ⟨4, []⟩ with offsets := [0, 1, 1] } 2 0 0 4 0
        (fun _ => 0) 1 = (fun _ => 0) :=
  empty_bag_no_update sgd_step { scenarioB ⟨4, []⟩ with offsets := [0, 1, 1] } 2 0 0 4 0 1
    (fun _ => 0) [] rfl (by decide)

/-! ## C4: rows no bag references -/

theorem mem_spec_update_sites (a : Args) (T B : Int) (s : UpdateSite)
    (hs : s ∈ spec_update_sites a T B) :
    ∃ t ∈ int_range 0 T, ∃ b ∈ int_range 0 B, ∃ p ∈ bag_positions a B t b,
      ∃ d ∈ int_range 0 (D_of a t), s = spec_site a B t b p d := by
  unfold spec_update_sites spec_bag_sites at hs
  simp only [List.mem_flatMap, List.mem_map] at hs
  obtain ⟨t, ht, b, hb, p, hp, d, hd, rfl⟩ := hs
  exact ⟨t, ht, b, hb, p, hp, d, hd, rfl⟩

theorem row_offset_ne_same_table (W Dt i r d e : Int) (hir : i ≠ r)
    (hd : 0 ≤ d ∧ d < Dt) (he : 0 ≤ e ∧ e < Dt) :
    W + i * Dt + d ≠ W + r * Dt + e := by
  intro h
  rcases lt_or_gt_of_ne hir with hlt | hgt
  · have h1 : (i + 1) * Dt ≤ r * Dt :=
      mul_le_mul_of_nonneg_right (by omega) (by omega)
    nlinarith
  · have h1 : (r + 1) * Dt ≤ i * Dt :=
      mul_le_mul_of_nonneg_right (by omega) (by omega)
    nlinarith

theorem row_offset_in_span (W Dt Ht i d : Int) (hi : 0 ≤ i ∧ i < Ht) (hd : 0 ≤ d ∧ d < Dt) :
    W ≤ W + i * Dt + d ∧ W + i * Dt + d < W + Ht * Dt := by
  have h1 : (i + 1) * Dt ≤ Ht * Dt := mul_le_mul_of_nonneg_right (by omega) (by omega)
  have h2 : 0 ≤ i * Dt := mul_nonneg hi.1 (by omega)
  constructor
  · linarith [hd.1]
  · nlinarith [hd.2]

/-- C4. Frame property of the generic path. Assume the layout invariants: the
tables `t` in `[0, T)` occupy pairwise disjoint spans `[W_t, W_t + H_t * D_t)`,
and every index of every bag of table `t` lies in `[0, H_t)`. Assume the update rule
writes only the weight scalar at the offset it is given (`wt` reads the weight arena
out of the buffer state). Then every scalar `W_t + r * D_t + e` of a row `r` of table
`t` that no bag of table `t` references has the same value after the generic loop as
before it. -/
theorem unreferenced_row_unchanged {σ : Type} (wt : σ → Int → ℚ) (upd : σ → UpdateSite → σ)
    (a : Args) (T B : Int) (H : Int → Int) (st : σ) (t r e : Int)
    (hupd : ∀ (s : σ) (site : UpdateSite) (k : Int),
      k ≠ site.offset → wt (upd s site) k = wt s k)
    (hdisj : ∀ t1 ∈ int_range 0 T, ∀ t2 ∈ int_range 0 T, t1 ≠ t2 →
      W_of a t1 + H t1 * D_of a t1 ≤ W_of a t2 ∨ W_of a t2 + H t2 * D_of a t2 ≤ W_of a t1)
    (hidx : ∀ t1 ∈ int_range 0 T, ∀ b ∈ int_range 0 B, ∀ p ∈ bag_positions a B t1 b,
      0 ≤ rd a.indices p ∧ rd a.indices p < H t1)
    (ht : t ∈ int_range 0 T) (hr : 0 ≤ r ∧ r < H t) (he : 0 ≤ e ∧ e < D_of a t)
    (hunref : ∀ b ∈ int_range 0 B, ∀ p ∈ bag_positions a B t b, rd a.indices p ≠ r) :
    wt (generic_loop upd a T B st) (W_of a t + r * D_of a t + e)
      = wt st (W_of a t + r * D_of a t + e) := by
  rw [generic_loop_eq]
  apply foldl_frame wt upd hupd
  intro s hs
  obtain ⟨t1, ht1, b, hb, p, hp, d, hd, rfl⟩ := mem_spec_update_sites a T B s hs
  rw [mem_int_range] at hd
  show W_of a t1 + rd a.indices p * D_of a t1 + d ≠ W_of a t + r * D_of a t + e
  by_cases htt : t1 = t
  · subst htt
    exact row_offset_ne_same_table _ _ _ _ _ _ (hunref b hb p hp) hd he
  · have h1 := row_offset_in_span (W_of a t1) (D_of a t1) (H t1) (rd a.indices p) d
      (hidx t1 ht1 b hb p hp) hd
    have h2 := row_offset_in_span (W_of a t) (D_of a t) (H t) r e hr he
    rcases hdisj t1 ht1 t ht htt with h | h
    · omega
    · omega

/-- Witness for C4: Scenario A with the gradient-descent rule on a weight arena
`Int → ℚ`; row 1 of the single six-row table is referenced by no bag, and its first
scalar (offset 4) is unchanged. -/
theorem unreferenced_row_unchanged_witness :
    generic_loop sgd_step (scenarioA ⟨4, [[1, 2, 3, 4], [5, 6, 7, 8]]⟩) 1 2 (fun _ => 0)
        (W_of (scenarioA ⟨4, [[1, 2, 3, 4], [5, 6, 7, 8]]⟩) 0
          + 1 * D_of (scenarioA ⟨4, [[1, 2, 3, 4], [5, 6, 7, 8]]⟩) 0 + 0)
      = (fun _ => (0 : ℚ)) (W_of (scenarioA ⟨4, [[1, 2, 3, 4], [5, 6, 7, 8]]⟩) 0
          + 1 * D_of (scenarioA ⟨4, [[1, 2, 3, 4], [5, 6, 7, 8]]⟩) 0 + 0) :=
  unreferenced_row_unchanged (fun w => w) sgd_step
    (scenarioA ⟨4, [[1, 2, 3, 4], [5, 6, 7, 8]]⟩) 1 2 (fun _ => 6) (fun _ => 0) 0 1 0
    (fun s site k hk => by simp [sgd_step, Function.update_noteq hk])
    (by decide) (by decide) (by decide) (by decide) (by decide) (by decide)

/-! ## C5: the sum of the bag lengths -/

theorem sum_range_telescope (f : Int → Int) (lo : Int) (n : Nat) :
    ((List.range n).map fun (i : Nat) => f (lo + (i : Int) + 1) - f (lo + (i : Int))).sum
      = f (lo + (n : Int)) - f lo := by
  induction n with
  | zero => simp
  | succ n ih =>
    rw [List.range_succ, List.map_append, List.sum_append, ih]
    simp only [List.map_cons, List.map_nil, List.sum_cons, List.sum_nil, Nat.cast_succ]
    have : lo + ((n : Int) + 1) = lo + (n : Int) + 1 := by ring
    rw [this]
    ring

theorem sum_int_range_telescope (f : Int → Int) (lo hi : Int) (h : lo ≤ hi) :
    ((int_range lo hi).map fun i => f (i + 1) - f i).sum = f hi - f lo := by
  unfold int_range
  rw [List.map_map]
  have h1 := sum_range_telescope f lo (hi - lo).toNat
  have h2 : lo + ((hi - lo).toNat : Int) = hi := by omega
  rw [h2] at h1
  exact h1

/-- C5 (amended). For every input the entry point accepts, the bag lengths `L(t, b)`
summed over all tables `t` in `[0, T)` and samples `b` in `[0, B)` telescope to
`bag_offsets[T * B] - bag_offsets[0]`; the sum is the number of indices when
`bag_offsets[0] = 0` and `bag_offsets[T * B] = NNZ`. -/
theorem total_bag_length_eq (a : Args) (h : accepted a) :
    total_bag_length a (T_of a) (B_of a)
        = rd a.offsets (T_of a * B_of a) - rd a.offsets 0
    ∧ (rd a.offsets 0 = 0 → rd a.offsets (T_of a * B_of a) = (a.indices.length : Int) →
        total_bag_length a (T_of a) (B_of a) = (a.indices.length : Int)) := by
  obtain ⟨hT, hB, _⟩ := h
  have inner : ∀ t : Int,
      ((int_range 0 (B_of a)).map fun b => bag_length a (B_of a) t b).sum
        = rd a.offsets ((t + 1) * B_of a) - rd a.offsets (t * B_of a) := by
    intro t
    have h1 := sum_int_range_telescope (fun b => rd a.offsets (t * B_of a + b)) 0 (B_of a)
      (le_of_lt hB)
    simp only [bag_length]
    have h2 : (t + 1) * B_of a = t * B_of a + B_of a := by ring
    rw [h2]
    simpa [add_assoc] using h1
  have outer : total_bag_length a (T_of a) (B_of a)
      = rd a.offsets (T_of a * B_of a) - rd a.offsets 0 := by
    unfold total_bag_length
    simp only [inner]
    have h1 := sum_int_range_telescope (fun t => rd a.offsets (t * B_of a)) 0 (T_of a)
      (le_of_lt hT)
    simpa using h1
  refine ⟨outer, ?_⟩
  intro h0 hN
  rw [outer, h0, hN]
  ring

/-- Witness for C5: Scenario A, whose bag offsets `[0, 1, 3]` start at 0 and end at
the number of indices. -/
theorem total_bag_length_eq_witness :
    total_bag_length (scenarioA ⟨4, []⟩) (T_of (scenarioA ⟨4, []⟩)) (B_of (scenarioA ⟨4, []⟩))
        = rd (scenarioA ⟨4, []⟩).offsets (T_of (scenarioA ⟨4, []⟩) * B_of (scenarioA ⟨4, []⟩))
            - rd (scenarioA ⟨4, []⟩).offsets 0
    ∧ (rd (scenarioA ⟨4, []⟩).offsets 0 = 0 →
        rd (scenarioA ⟨4, []⟩).offsets (T_of (scenarioA ⟨4, []⟩) * B_of (scenarioA ⟨4, []⟩))
          = ((scenarioA ⟨4, []⟩).indices.length : Int) →
        total_bag_length (scenarioA ⟨4, []⟩) (T_of (scenarioA ⟨4, []⟩))
          (B_of (scenarioA ⟨4, []⟩)) = ((scenarioA ⟨4, []⟩).indices.length : Int)) :=
  total_bag_length_eq (scenarioA ⟨4, []⟩) (by decide)

/-- Counterexample to C5 as stated: `short_offsets_args` is accepted by the entry
point (`T = 1`, `B = 1`, rank 1), its bag offsets `[0, 1]` are non-decreasing, and
the sum of its bag lengths is 1 while it has 3 indices. -/
theorem total_bag_length_counterexample :
    accepted short_offsets_args
    ∧ nondecreasing short_offsets_args.offsets
    ∧ total_bag_length short_offsets_args (T_of short_offsets_args) (B_of short_offsets_args) = 1
    ∧ (short_offsets_args.indices.length : Int) = 3
    ∧ total_bag_length short_offsets_args (T_of short_offsets_args) (B_of short_offsets_args)
        ≠ (short_offsets_args.indices.length : Int) := by
  decide

/-! ## C6: the check on B -/

theorem tdiv_pos_iff (x T : Int) (hT : 0 < T) : 0 < x.tdiv T ↔ T ≤ x := by
  constructor
  · intro h
    by_contra hlt
    have hx : x < T := not_le.mp hlt
    rcases le_or_lt 0 x with h0 | h0
    · have : x.tdiv T = 0 := Int.tdiv_eq_zero_of_lt h0 hx
      omega
    · have h1 : (-x).tdiv T = -(x.tdiv T) := Int.neg_tdiv x T
      have h2 : 0 ≤ (-x).tdiv T := Int.tdiv_nonneg (by omega) (le_of_lt hT)
      omega
  · intro h
    have h0 : 0 ≤ x := by omega
    rw [Int.tdiv_eq_ediv h0 (le_of_lt hT)]
    have := Int.le_ediv_of_mul_le hT (show 1 * T ≤ x by omega)
    omega

theorem fused_runs_failed {σ : Type} (kernel : KernelCall → σ → Bool × σ) (a : Args)
    (B grad_stride : Int) (runs : List SliceRun) (st st1 : σ) (e : Err)
    (h : fused_runs kernel a B grad_stride runs st = .failed e st1) : e = .check_success := by
  induction runs generalizing st with
  | nil => simp [fused_runs] at h
  | cons r rest ih =>
    simp only [fused_runs] at h
    split at h
    · simp at h
    · split at h
      · exact ih _ h
      · simp only [Result.failed.injEq] at h
        exact h.1.symm

theorem fused_runs_undefined {σ : Type} (kernel : KernelCall → σ → Bool × σ) (a : Args)
    (B grad_stride : Int) (runs : List SliceRun) (st : σ) (u : Undefined)
    (h : fused_runs kernel a B grad_stride runs st = .undefined u) :
    u = .read_out_of_bounds := by
  induction runs generalizing st with
  | nil => simp [fused_runs] at h
  | cons r rest ih =>
    simp only [fused_runs] at h
    split at h
    · simp only [Result.undefined.injEq] at h
      exact h.symm
    · split at h
      · exact ih _ h
      · simp at h

theorem parallel_for_failed {σ : Type} (f : Int → Int → σ → Result σ)
    (hf : ∀ x y s e s1, f x y s = .failed e s1 → e = .check_success)
    (slices : List (Int × Int)) (st st1 : σ) (e : Err)
    (h : parallel_for f slices st = .failed e st1) : e = .check_success := by
  induction slices generalizing st with
  | nil => simp [parallel_for] at h
  | cons s rest ih =>
    obtain ⟨x, y⟩ := s
    simp only [parallel_for] at h
    split at h
    · exact ih _ h
    · rename_i e2 s2 hr
      have he2 := hf x y st e2 s2 hr
      split at h
      · simp only [Result.failed.injEq] at h
        rw [← h.1, he2]
      · simp only [Result.failed.injEq] at h
        rw [← h.1, he2]
      · simp at h
    · simp at h

theorem parallel_for_undefined {σ : Type} (f : Int → Int → σ → Result σ)
    (hf : ∀ x y s u, f x y s = .undefined u → u = .read_out_of_bounds)
    (slices : List (Int × Int)) (st : σ) (u : Undefined)
    (h : parallel_for f slices st = .undefined u) : u = .read_out_of_bounds := by
  induction slices generalizing st u with
  | nil => simp [parallel_for] at h
  | cons s rest ih =>
    obtain ⟨x, y⟩ := s
    simp only [parallel_for] at h
    split at h
    · exact ih _ _ h
    · split at h
      · simp at h
      · simp at h
      · rename_i u2 hp
        simp only [Result.undefined.injEq] at h
        rw [← h]
        exact ih _ _ hp
    · rename_i u2 hr
      simp only [Result.undefined.injEq] at h
      rw [← h]
      exact hf x y st u2 hr

/-- The entry point, case by case: the first failing check decides; when all three
pass, the selected path runs with `T = T_of a` and `B = B_of a`. -/
theorem entry_eq {σ : Type} (optimizer : String) (upd : σ → UpdateSite → σ)
    (kernel : KernelCall → σ → Bool × σ) (slices : List (Int × Int)) (a : Args) (st : σ) :
    split_embedding_backward_codegen_cpu optimizer upd kernel slices a st
      = if T_of a ≤ 0 then .failed .check_T st
        else if B_of a ≤ 0 then .failed .check_B st
        else if a.host_weights_dim ≠ 1 then .failed .check_dim st
        else
          match select_path optimizer a.host_weights_type a.grad_output_type with
          | .fused =>
            parallel_for (fused_slice kernel a (B_of a) a.grad_output.size1) slices st
          | .generic => .done (generic_loop upd a (T_of a) (B_of a) st)
          | .not_implemented => .failed .not_implemented st := by
  unfold split_embedding_backward_codegen_cpu
  simp only [T_of, B_of, int64_div]
  by_cases hT : (a.D_offsets.length : Int) - 1 ≤ 0
  · rw [if_pos (show ¬ ((a.D_offsets.length : Int) - 1 > 0) by omega), if_pos hT]
  · rw [if_neg (show ¬ ¬ ((a.D_offsets.length : Int) - 1 > 0) by omega), if_neg hT,
      if_neg (show ¬ ((a.D_offsets.length : Int) - 1 = 0) by omega)]
    dsimp only
    by_cases hB : ((a.offsets.length : Int) - 1).tdiv ((a.D_offsets.length : Int) - 1) ≤ 0
    · rw [if_pos (show ¬ (((a.offsets.length : Int) - 1).tdiv ((a.D_offsets.length : Int) - 1) > 0)
        by omega), if_pos hB]
    · rw [if_neg (show ¬ ¬ (((a.offsets.length : Int) - 1).tdiv ((a.D_offsets.length : Int) - 1) > 0)
        by omega), if_neg hB]

theorem entry_failed_check_B {σ : Type} (optimizer : String) (upd : σ → UpdateSite → σ)
    (kernel : KernelCall → σ → Bool × σ) (slices : List (Int × Int)) (a : Args) (st st1 : σ)
    (h : split_embedding_backward_codegen_cpu optimizer upd kernel slices a st = .failed .check_B st1) :
    ¬ T_of a ≤ 0 ∧ B_of a ≤ 0 := by
  rw [entry_eq] at h
  split at h
  · simp at h
  · rename_i hT
    split at h
    · rename_i hB
      exact ⟨hT, hB⟩
    · split at h
      · simp at h
      · split at h
        · have := parallel_for_failed _
            (fun x y s e s1 hf => fused_runs_failed kernel a _ _ _ s s1 e hf) slices st st1 _ h
          simp at this
        · simp at h
        · simp at h

/-- C6 (amended). For every input with `T > 0`, the entry point fails its check on
`B` exactly when `len(bag_offsets) - 1 < T`, that is when the truncated quotient
`B = (len(bag_offsets) - 1) / T` is not positive. Whether `len(bag_offsets) - 1` is
an exact multiple of `T` is not checked. -/
theorem entry_check_B_iff {σ : Type} (optimizer : String) (upd : σ → UpdateSite → σ)
    (kernel : KernelCall → σ → Bool × σ) (slices : List (Int × Int)) (a : Args) (st : σ)
    (hT : 0 < T_of a) :
    split_embedding_backward_codegen_cpu optimizer upd kernel slices a st = .failed .check_B st
      ↔ (a.offsets.length : Int) - 1 < T_of a := by
  have hpos := tdiv_pos_iff ((a.offsets.length : Int) - 1) (T_of a) hT
  constructor
  · intro h
    have hB := (entry_failed_check_B optimizer upd kernel slices a st st h).2
    unfold B_of at hB
    by_contra hge
    have := hpos.mpr (by omega)
    omega
  · intro h
    have hB : B_of a ≤ 0 := by
      unfold B_of
      by_contra hgt
      have := hpos.mp (by omega)
      omega
    rw [entry_eq, if_neg (by omega), if_pos hB]

/-- Witness for C6: Scenario A has `T = 1` and three bag offsets, so its check on
`B` passes. -/
theorem entry_check_B_iff_witness :
    split_embedding_backward_codegen_cpu "approx_sgd" record idle_kernel [] (scenarioA ⟨4, []⟩) [] = .failed .check_B []
      ↔ ((scenarioA ⟨4, []⟩).offsets.length : Int) - 1 < T_of (scenarioA ⟨4, []⟩) :=
  entry_check_B_iff "approx_sgd" record idle_kernel [] (scenarioA ⟨4, []⟩) [] (by decide)

/-- Counterexample to C6 as stated: with `T = 2` and four bag offsets,
`len(bag_offsets) - 1 = 3` is not a multiple of `T`, and the call returns normally
with `B = 1`, having updated one row of each table. -/
theorem entry_ragged_offsets_counterexample :
    0 < T_of ragged_offsets_args
    ∧ ((ragged_offsets_args.offsets.length : Int) - 1) % T_of ragged_offsets_args ≠ 0
    ∧ split_embedding_backward_codegen_cpu "approx_sgd" record idle_kernel [] ragged_offsets_args []
        = .done [⟨0, 0, 0, 0, 2, 1⟩, ⟨1, 0, 1, 0, 3, 2⟩] := by
  refine ⟨by decide, by decide, ?_⟩
  decide!

/-! ## C7: failing checks precede every write -/

/-- C7. For every input with `T <= 0`, or `B <= 0`, or a weight arena whose rank is
not 1, the entry point fails at the first of the three checks that does not hold,
with the buffer state (weight arena and optimizer state) as it was on entry; and the
division by `T` is not evaluated with `T = 0`: the outcome is never the undefined
division. -/
theorem entry_rejects_before_write {σ : Type} (optimizer : String) (upd : σ → UpdateSite → σ)
    (kernel : KernelCall → σ → Bool × σ) (slices : List (Int × Int)) (a : Args) (st : σ)
    (h : T_of a ≤ 0 ∨ B_of a ≤ 0 ∨ a.host_weights_dim ≠ 1) :
    split_embedding_backward_codegen_cpu optimizer upd kernel slices a st
        = .failed (if T_of a ≤ 0 then .check_T else if B_of a ≤ 0 then .check_B else .check_dim) st
    ∧ (∀ (a1 : Args) (st1 : σ),
        split_embedding_backward_codegen_cpu optimizer upd kernel slices a1 st1 ≠ .undefined .div_by_zero) := by
  constructor
  · rw [entry_eq]
    by_cases hT : T_of a ≤ 0
    · rw [if_pos hT, if_pos hT]
    · rw [if_neg hT, if_neg hT]
      by_cases hB : B_of a ≤ 0
      · rw [if_pos hB, if_pos hB]
      · rw [if_neg hB, if_neg hB]
        have hd : a.host_weights_dim ≠ 1 := by
          rcases h with h | h | h
          · exact absurd h hT
          · exact absurd h hB
          · exact h
        rw [if_pos hd]
  · intro a1 st1 hu
    rw [entry_eq] at hu
    split at hu
    · simp at hu
    · split at hu
      · simp at hu
      · split at hu
        · simp at hu
        · split at hu
          · have := parallel_for_undefined _
              (fun x y s u hf => fused_runs_undefined kernel a1 _ _ _ s u hf) slices st1 _ hu
            simp at this
          · simp at hu
          · simp at hu

/-- Witness for C7: with one entry in `D_offsets` (`T = 0`) the call fails at the
check on `T` and the recorded trace stays empty. -/
theorem entry_rejects_before_write_witness :
    split_embedding_backward_codegen_cpu "approx_sgd" record idle_kernel [] no_table_args []
        = .failed (if T_of no_table_args ≤ 0 then .check_T
            else if B_of no_table_args ≤ 0 then .check_B else .check_dim) []
    ∧ (∀ (a1 : Args) (st1 : List UpdateSite),
        split_embedding_backward_codegen_cpu "approx_sgd" record idle_kernel [] a1 st1 ≠ .undefined .div_by_zero) :=
  entry_rejects_before_write "approx_sgd" record idle_kernel [] no_table_args []
    (Or.inl (by decide))

/-! ## C8: the decomposition of a slice of the fused path -/

theorem to_int_of_fits (x : Int) (h1 : -2147483648 ≤ x) (h2 : x < 2147483648) :
    to_int x = x := by
  unfold to_int
  omega

/-- Rounding up: `(y + B - 1) / B` is `y / B` when `B` divides `y` and `y / B + 1`
otherwise. -/
theorem ceil_div (y B : Int) (hB : 0 < B) :
    (y + B - 1) / B = y / B + (if y % B = 0 then 0 else 1) := by
  have h1 := Int.emod_add_ediv y B
  have h2 := Int.emod_nonneg y (ne_of_gt hB)
  have h3 := Int.emod_lt_of_pos y hB
  by_cases hr : y % B = 0
  · rw [if_pos hr]
    have : (y + B - 1) / B = y / B + 0 ∧ (y + B - 1) % B = B - 1 := by
      rw [Int.ediv_emod_unique hB]
      refine ⟨by linarith, by omega, by omega⟩
    exact this.1
  · rw [if_neg hr]
    have : (y + B - 1) / B = y / B + 1 ∧ (y + B - 1) % B = y % B - 1 := by
      rw [Int.ediv_emod_unique hB]
      refine ⟨by linarith, by omega, by omega⟩
    exact this.1

/-- Comparison of flattened positions, block by block: with `0 <= r, b < B`,
`q * B + r <= t * B + b` holds when `q < t`, or `t = q` and `r <= b`. -/
theorem block_le_iff (B t b q r : Int) (hB : 0 < B) (hr : 0 ≤ r ∧ r < B) (hb : 0 ≤ b ∧ b < B) :
    q * B + r ≤ t * B + b ↔ (q < t ∨ (t = q ∧ r ≤ b)) := by
  rcases lt_trichotomy t q with h | h | h
  · have h1 : (t + 1) * B ≤ q * B := mul_le_mul_of_nonneg_right (by omega) (le_of_lt hB)
    constructor
    · intro h2
      nlinarith
    · intro h2
      omega
  · subst h
    constructor
    · intro h2
      right
      exact ⟨rfl, by linarith⟩
    · intro h2
      rcases h2 with h2 | h2
      · omega
      · linarith
  · have h1 : (q + 1) * B ≤ t * B := mul_le_mul_of_nonneg_right (by omega) (le_of_lt hB)
    constructor
    · intro _
      left
      exact h
    · intro _
      nlinarith

/-- On values that fit in `int` the iterations of a slice are those of the
mathematical decomposition: `t` from `tb_begin / B` to `ceil(tb_end / B) - 1`,
`b_begin = tb_begin mod B` on the first table, else 0, and `b_end = tb_end mod B` on
the last table when that is not zero, else `B`. -/
theorem fused_slice_runs_eq (B T x y : Int) (hB : 0 < B) (hB2 : B < 2147483648)
    (hT2 : T < 2147483648) (hx : 0 ≤ x) (hxy : x ≤ y) (hy : y ≤ T * B) :
    fused_slice_runs B x y
      = (int_range (x / B) ((y + B - 1) / B)).map fun t =>
          ({ t := t, b_begin := if t = x / B then x % B else 0,
             b_end := if t = (y + B - 1) / B - 1 ∧ y % B ≠ 0 then y % B else B } : SliceRun) := by
  have e1 : x.tdiv B = x / B := Int.tdiv_eq_ediv hx (le_of_lt hB)
  have e2 : (y + B - 1).tdiv B = (y + B - 1) / B :=
    Int.tdiv_eq_ediv (by omega) (le_of_lt hB)
  have e3 : x.tmod B = x % B := Int.tmod_eq_emod hx (le_of_lt hB)
  have e4 : y.tmod B = y % B := Int.tmod_eq_emod (by omega) (le_of_lt hB)
  have b1 : 0 ≤ x / B := Int.ediv_nonneg hx (le_of_lt hB)
  have b2 : x / B ≤ T := Int.ediv_le_of_le_mul hB (by linarith)
  have b3 : 0 ≤ (y + B - 1) / B := Int.ediv_nonneg (by omega) (le_of_lt hB)
  have b4 : (y + B - 1) / B ≤ T := by
    have := Int.ediv_lt_of_lt_mul hB (show y + B - 1 < (T + 1) * B by nlinarith)
    omega
  have m1 := Int.emod_nonneg x (ne_of_gt hB)
  have m2 := Int.emod_lt_of_pos x hB
  have m3 := Int.emod_nonneg y (ne_of_gt hB)
  have m4 := Int.emod_lt_of_pos y hB
  unfold fused_slice_runs
  simp only [e1, e2, e3, e4]
  rw [to_int_of_fits (x / B) (by omega) (by omega),
    to_int_of_fits ((y + B - 1) / B) (by omega) (by omega)]
  apply List.map_congr_left
  intro t _
  have h1 : to_int (if t = x / B then x % B else 0) = if t = x / B then x % B else 0 := by
    apply to_int_of_fits <;> split_ifs <;> omega
  have h2 : to_int (if t = (y + B - 1) / B - 1 ∧ y % B ≠ 0 then y % B else B)
      = if t = (y + B - 1) / B - 1 ∧ y % B ≠ 0 then y % B else B := by
    apply to_int_of_fits <;> split_ifs <;> omega
  rw [h1, h2]

/-- The run of table `t` in the slice `[x, y)` covers sample `b` exactly when `b` is
a sample and the flattened position `t * B + b` lies in the slice. -/
theorem run_cover_iff (B x y t b : Int) (hB : 0 < B) :
    (x / B ≤ t ∧ t < (y + B - 1) / B
        ∧ (if t = x / B then x % B else 0) ≤ b
        ∧ b < (if t = (y + B - 1) / B - 1 ∧ y % B ≠ 0 then y % B else B))
      ↔ (0 ≤ b ∧ b < B ∧ x ≤ t * B + b ∧ t * B + b < y) := by
  have m1 := Int.emod_nonneg x (ne_of_gt hB)
  have m2 := Int.emod_lt_of_pos x hB
  have m3 := Int.emod_nonneg y (ne_of_gt hB)
  have m4 := Int.emod_lt_of_pos y hB
  have dx := Int.ediv_add_emod' x B
  have dy := Int.ediv_add_emod' y B
  have hc := ceil_div y B hB
  generalize (y + B - 1) / B = te at hc ⊢
  generalize x / B = qx at dx ⊢
  generalize y / B = qy at dy hc
  generalize x % B = rx at dx m1 m2 ⊢
  generalize y % B = ry at dy m3 m4 hc ⊢
  by_cases hb : 0 ≤ b ∧ b < B
  · have kx := block_le_iff B t b qx rx hB ⟨m1, m2⟩ hb
    have ky := block_le_iff B t b qy ry hB ⟨m3, m4⟩ hb
    rw [dx] at kx
    rw [dy] at ky
    have ky2 : t * B + b < y ↔ ¬ (qy < t ∨ (t = qy ∧ ry ≤ b)) := by
      rw [← ky]
      exact not_le.symm
    rw [kx, ky2]
    by_cases hr : ry = 0
    · rw [if_pos hr] at hc
      split_ifs <;> omega
    · rw [if_neg hr] at hc
      split_ifs <;> omega
  · constructor
    · intro h
      exfalso
      apply hb
      by_cases hr : ry = 0
      · rw [if_pos hr] at hc
        split_ifs at h <;> omega
      · rw [if_neg hr] at hc
        split_ifs at h <;> omega
    · intro h
      exact absurd ⟨h.1, h.2.1⟩ hb

theorem int_range_nodup (lo hi : Int) : (int_range lo hi).Nodup := by
  unfold int_range
  apply List.Nodup.map _ (List.nodup_range _)
  intro i j h
  simp only at h
  omega

theorem fused_slice_runs_bounds (B T x y : Int) (hB : 0 < B) (hB2 : B < 2147483648)
    (hT2 : T < 2147483648) (hx : 0 ≤ x) (hxy : x ≤ y) (hy : y ≤ T * B)
    (r : SliceRun) (hr : r ∈ fused_slice_runs B x y) :
    0 ≤ r.t ∧ r.t < T ∧ 0 ≤ r.b_begin ∧ r.b_begin ≤ r.b_end ∧ r.b_end ≤ B := by
  rw [fused_slice_runs_eq B T x y hB hB2 hT2 hx hxy hy, List.mem_map] at hr
  obtain ⟨t, ht, rfl⟩ := hr
  rw [mem_int_range] at ht
  have b1 : 0 ≤ x / B := Int.ediv_nonneg hx (le_of_lt hB)
  have b4 : (y + B - 1) / B ≤ T := by
    have := Int.ediv_lt_of_lt_mul hB (show y + B - 1 < (T + 1) * B by nlinarith)
    omega
  have m1 := Int.emod_nonneg x (ne_of_gt hB)
  have m2 := Int.emod_lt_of_pos x hB
  have m3 := Int.emod_nonneg y (ne_of_gt hB)
  have m4 := Int.emod_lt_of_pos y hB
  have hc := ceil_div y B hB
  have same : x / B = y / B → x % B ≤ y % B := by
    intro h
    have dx := Int.ediv_add_emod' x B
    have dy := Int.ediv_add_emod' y B
    rw [h] at dx
    linarith
  refine ⟨by show 0 ≤ t; omega, by show t < T; omega, ?_, ?_, ?_⟩
  · show 0 ≤ (if t = x / B then x % B else 0)
    split_ifs <;> omega
  · show (if t = x / B then x % B else 0)
      ≤ (if t = (y + B - 1) / B - 1 ∧ y % B ≠ 0 then y % B else B)
    by_cases hry : y % B = 0
    · rw [if_pos hry] at hc
      split_ifs <;> omega
    · rw [if_neg hry] at hc
      split_ifs with h1 h2
      · apply same
        omega
      · omega
      · omega
      · omega
  · show (if t = (y + B - 1) / B - 1 ∧ y % B ≠ 0 then y % B else B) ≤ B
    split_ifs <;> omega

theorem slice_pairs_nodup (B x y : Int) : (slice_pairs B x y).Nodup := by
  unfold slice_pairs
  rw [List.nodup_flatMap]
  constructor
  · intro r _
    unfold run_pairs
    apply List.Nodup.map _ (int_range_nodup _ _)
    intro i j h
    simp only [Prod.mk.injEq] at h
    exact h.2
  · have hp : (fused_slice_runs B x y).Pairwise (fun r1 r2 => r1.t ≠ r2.t) := by
      unfold fused_slice_runs
      rw [List.pairwise_map]
      exact int_range_nodup _ _
    refine hp.imp ?_
    intro r1 r2 hne
    show List.Disjoint (run_pairs r1) (run_pairs r2)
    intro p h1 h2
    unfold run_pairs at h1 h2
    rw [List.mem_map] at h1 h2
    obtain ⟨b1, _, rfl⟩ := h1
    obtain ⟨b2, _, h2⟩ := h2
    simp only [Prod.mk.injEq] at h2
    exact hne h2.1.symm

theorem mem_slice_pairs (B T x y : Int) (hB : 0 < B) (hB2 : B < 2147483648)
    (hT2 : T < 2147483648) (hx : 0 ≤ x) (hxy : x ≤ y) (hy : y ≤ T * B) (t b : Int) :
    (t, b) ∈ slice_pairs B x y ↔ (0 ≤ b ∧ b < B ∧ x ≤ t * B + b ∧ t * B + b < y) := by
  rw [← run_cover_iff B x y t b hB]
  unfold slice_pairs
  rw [fused_slice_runs_eq B T x y hB hB2 hT2 hx hxy hy]
  simp only [List.mem_flatMap, List.mem_map, run_pairs, mem_int_range, Prod.mk.injEq]
  constructor
  · rintro ⟨r, ⟨t1, ht1, rfl⟩, b1, hb1, rfl, rfl⟩
    exact ⟨ht1.1, ht1.2, hb1.1, hb1.2⟩
  · rintro ⟨h1, h2, h3, h4⟩
    exact ⟨_, ⟨t, ⟨h1, h2⟩, rfl⟩, b, ⟨h3, h4⟩, rfl, rfl⟩

theorem count_one_of_mem_nodup {α : Type} [BEq α] [LawfulBEq α] {a : α} {l : List α}
    (d : l.Nodup) (h : a ∈ l) : l.count a = 1 := by
  induction l with
  | nil => simp at h
  | cons x xs ih =>
    rw [List.nodup_cons] at d
    rw [List.count_cons]
    by_cases hx : x = a
    · subst hx
      rw [List.count_eq_zero_of_not_mem d.1]
      simp
    · have hmem : a ∈ xs := by
        rcases List.mem_cons.mp h with h1 | h1
        · exact absurd h1.symm hx
        · exact h1
      rw [ih d.2 hmem]
      simp [hx]

theorem count_slice_pairs (B T x y : Int) (hB : 0 < B) (hB2 : B < 2147483648)
    (hT2 : T < 2147483648) (hx : 0 ≤ x) (hxy : x ≤ y) (hy : y ≤ T * B) (t b : Int) :
    (slice_pairs B x y).count (t, b)
      = if 0 ≤ b ∧ b < B ∧ x ≤ t * B + b ∧ t * B + b < y then 1 else 0 := by
  have hm := mem_slice_pairs B T x y hB hB2 hT2 hx hxy hy t b
  by_cases h : 0 ≤ b ∧ b < B ∧ x ≤ t * B + b ∧ t * B + b < y
  · rw [if_pos h]
    exact count_one_of_mem_nodup (slice_pairs_nodup B x y) (hm.mpr h)
  · rw [if_neg h]
    exact List.count_eq_zero_of_not_mem (fun hmem => h (hm.mp hmem))

theorem is_split_le (lo hi : Int) (slices : List (Int × Int)) (h : is_split lo hi slices) :
    lo ≤ hi := by
  induction slices generalizing lo with
  | nil =>
    simp only [is_split] at h
    omega
  | cons s rest ih =>
    obtain ⟨x, y⟩ := s
    simp only [is_split] at h
    have := ih y h.2.2
    omega

theorem count_split_pairs (B T : Int) (hB : 0 < B) (hB2 : B < 2147483648)
    (hT2 : T < 2147483648) (lo hi : Int) (slices : List (Int × Int))
    (hlo : 0 ≤ lo) (hhi : hi ≤ T * B) (h : is_split lo hi slices) (t b : Int) :
    (slices.flatMap fun s => slice_pairs B s.1 s.2).count (t, b)
      = if 0 ≤ b ∧ b < B ∧ lo ≤ t * B + b ∧ t * B + b < hi then 1 else 0 := by
  induction slices generalizing lo with
  | nil =>
    simp only [is_split] at h
    subst h
    simp only [List.flatMap_nil, List.count_nil]
    rw [if_neg]
    omega
  | cons s rest ih =>
    obtain ⟨x, y⟩ := s
    simp only [is_split] at h
    obtain ⟨rfl, hxy, hrest⟩ := h
    have hyhi := is_split_le y hi rest hrest
    rw [List.flatMap_cons, List.count_append, ih y (by omega) hrest,
      count_slice_pairs B T x y hB hB2 hT2 hlo hxy (by omega)]
    split_ifs <;> omega

/-- The decomposition of a slice on sizes that fit the `int` variables of the
lambda. For every `B` and `T` with `0 < B < 2^31` and `T < 2^31` and every slice
`[tb_begin, tb_end)` with `0 <= tb_begin <= tb_end <= T * B`: every iteration has
`0 <= t < T` and `0 <= b_begin <= b_end <= B`, and the iterations enumerate exactly
the pairs `(t, b)` with `0 <= b < B` and `tb_begin <= t * B + b < tb_end`, each
exactly once. Hence for every split of `[0, T * B)` into consecutive slices every
bag `(t, b)` with `0 <= t < T` and `0 <= b < B` is covered by exactly one run. -/
theorem fused_slice_decomposition (B T tb_begin tb_end : Int) (slices : List (Int × Int))
    (hB : 0 < B) (hB2 : B < 2147483648) (hT2 : T < 2147483648)
    (h0 : 0 ≤ tb_begin) (h1 : tb_begin ≤ tb_end) (h2 : tb_end ≤ T * B)
    (hs : is_split 0 (T * B) slices) :
    (∀ r ∈ fused_slice_runs B tb_begin tb_end,
        0 ≤ r.t ∧ r.t < T ∧ 0 ≤ r.b_begin ∧ r.b_begin ≤ r.b_end ∧ r.b_end ≤ B)
    ∧ (∀ t b : Int,
        (slice_pairs B tb_begin tb_end).count (t, b)
          = if 0 ≤ b ∧ b < B ∧ tb_begin ≤ t * B + b ∧ t * B + b < tb_end then 1 else 0)
    ∧ (∀ t ∈ int_range 0 T, ∀ b ∈ int_range 0 B,
        (slices.flatMap fun s => slice_pairs B s.1 s.2).count (t, b) = 1) := by
  refine ⟨fun r hr => fused_slice_runs_bounds B T tb_begin tb_end hB hB2 hT2 h0 h1 h2 r hr,
    fun t b => count_slice_pairs B T tb_begin tb_end hB hB2 hT2 h0 h1 h2 t b, ?_⟩
  intro t ht b hb
  rw [mem_int_range] at ht hb
  rw [count_split_pairs B T hB hB2 hT2 0 (T * B) slices (le_refl 0) (le_refl _) hs t b,
    if_pos]
  have h3 : (t + 1) * B ≤ T * B := mul_le_mul_of_nonneg_right (by omega) (le_of_lt hB)
  have h4 : 0 ≤ t * B := mul_nonneg ht.1 (le_of_lt hB)
  refine ⟨hb.1, hb.2, by linarith [hb.1], by nlinarith [hb.2]⟩

/-- The decomposition at `B = 2`, `T = 3`, the slice `[1, 5)` and the split of
`[0, 6)` into `[0, 1)`, `[1, 5)`, `[5, 6)`. -/
theorem fused_slice_decomposition_witness :
    (∀ r ∈ fused_slice_runs 2 1 5,
        0 ≤ r.t ∧ r.t < 3 ∧ 0 ≤ r.b_begin ∧ r.b_begin ≤ r.b_end ∧ r.b_end ≤ 2)
    ∧ (∀ t b : Int,
        (slice_pairs 2 1 5).count (t, b)
          = if 0 ≤ b ∧ b < 2 ∧ 1 ≤ t * 2 + b ∧ t * 2 + b < 5 then 1 else 0)
    ∧ (∀ t ∈ int_range 0 3, ∀ b ∈ int_range 0 2,
        ([(0, 1), (1, 5), (5, 6)].flatMap fun s => slice_pairs 2 s.1 s.2).count (t, b) = 1) :=
  fused_slice_decomposition 2 3 1 5 [(0, 1), (1, 5), (5, 6)]
    (by decide) (by decide) (by decide) (by decide) (by decide) (by decide) (by decide)

/-- C8. The decomposition of a slice is meant to enumerate exactly the pairs
`(t, b)` of the slice, with `0 <= b_begin <= b_end <= B`, for every `B > 0` and
`T > 0`. The code at `B = 2^31`, `T = 1` and the slice `[0, 2^31)`, which is all of
`[0, T * B)`: the `int` variable `b_end` receives the `int64_t` value `B` and wraps
to `-2^31`, so the single iteration has `b_end < b_begin`, no pair is enumerated,
and the pair `(0, 0)`, which lies in the slice, is not covered. (The generic loop
declares `t` and `b` as `int64_t`; on sizes below `2^31` the property holds, see
`fused_slice_decomposition`.) -/
theorem int_narrowing_counterexample :
    (0 : Int) < 2147483648 ∧ (0 : Int) < 1 ∧ (2147483648 : Int) ≤ 1 * 2147483648
    ∧ fused_slice_runs 2147483648 0 2147483648 = [⟨0, 0, -2147483648⟩]
    ∧ ¬ (∀ r ∈ fused_slice_runs 2147483648 0 2147483648, r.b_begin ≤ r.b_end)
    ∧ slice_pairs 2147483648 0 2147483648 = []
    ∧ (slice_pairs 2147483648 0 2147483648).count (0, 0) ≠ 1 := by
  decide

/-! ## C10: the selection of the path -/

/-- C10 (amended). The fused path is selected if and only if the optimizer is the
rowwise-adaptive one and both the weight arena and the output gradient are stored in
single precision. The generic path is selected if and only if that is not the case,
the gradient type is `Float` or `Double` and the weight type is `Float`, `Double` or
`Half`; this covers every other optimizer with such a type pair, single precision
included. For a gradient type outside `{Float, Double}` or a weight type outside
`{Float, Double, Half}` (when the fused path is not selected) the type dispatch
raises and neither path runs. On an accepted input the entry point runs what is
selected, with `T = T_of a` and `B = B_of a`. -/
theorem path_selection {σ : Type} (optimizer : String) (upd : σ → UpdateSite → σ)
    (kernel : KernelCall → σ → Bool × σ) (slices : List (Int × Int)) (a : Args) (st : σ)
    (h : accepted a) :
    (select_path optimizer a.host_weights_type a.grad_output_type = .fused
        ↔ optimizer = "approx_rowwise_adagrad"
          ∧ a.host_weights_type = .Float ∧ a.grad_output_type = .Float)
    ∧ (select_path optimizer a.host_weights_type a.grad_output_type = .generic
        ↔ ¬ (optimizer = "approx_rowwise_adagrad"
              ∧ a.host_weights_type = .Float ∧ a.grad_output_type = .Float)
          ∧ (a.grad_output_type = .Float ∨ a.grad_output_type = .Double)
          ∧ (a.host_weights_type = .Float ∨ a.host_weights_type = .Double
              ∨ a.host_weights_type = .Half))
    ∧ (select_path optimizer a.host_weights_type a.grad_output_type = .not_implemented
        ↔ ¬ ((a.grad_output_type = .Float ∨ a.grad_output_type = .Double)
              ∧ (a.host_weights_type = .Float ∨ a.host_weights_type = .Double
                  ∨ a.host_weights_type = .Half)))
    ∧ split_embedding_backward_codegen_cpu optimizer upd kernel slices a st
        = (match select_path optimizer a.host_weights_type a.grad_output_type with
           | .fused =>
             parallel_for (fused_slice kernel a (B_of a) a.grad_output.size1) slices st
           | .generic => .done (generic_loop upd a (T_of a) (B_of a) st)
           | .not_implemented => .failed .not_implemented st) := by
  obtain ⟨hT, hB, hd⟩ := h
  refine ⟨?_, ?_, ?_, ?_⟩
  · unfold select_path use_fbgemm floating_types floating_types_and_half
    by_cases ho : optimizer = "approx_rowwise_adagrad" <;>
      cases a.host_weights_type <;> cases a.grad_output_type <;> simp [ho]
  · unfold select_path use_fbgemm floating_types floating_types_and_half
    by_cases ho : optimizer = "approx_rowwise_adagrad" <;>
      cases a.host_weights_type <;> cases a.grad_output_type <;> simp [ho]
  · unfold select_path use_fbgemm floating_types floating_types_and_half
    by_cases ho : optimizer = "approx_rowwise_adagrad" <;>
      cases a.host_weights_type <;> cases a.grad_output_type <;> simp [ho]
  · rw [entry_eq, if_neg (by omega), if_neg (by omega), if_neg (not_not.mpr hd)]

/-- Witness for C10: Scenario A (single precision, accepted) with the
rowwise-adaptive optimizer. -/
theorem path_selection_witness :
    (select_path "approx_rowwise_adagrad" (scenarioA ⟨4, []⟩).host_weights_type
          (scenarioA ⟨4, []⟩).grad_output_type = .fused
        ↔ "approx_rowwise_adagrad" = "approx_rowwise_adagrad"
          ∧ (scenarioA ⟨4, []⟩).host_weights_type = .Float
          ∧ (scenarioA ⟨4, []⟩).grad_output_type = .Float)
    ∧ (select_path "approx_rowwise_adagrad" (scenarioA ⟨4, []⟩).host_weights_type
          (scenarioA ⟨4, []⟩).grad_output_type = .generic
        ↔ ¬ ("approx_rowwise_adagrad" = "approx_rowwise_adagrad"
              ∧ (scenarioA ⟨4, []⟩).host_weights_type = .Float
              ∧ (scenarioA ⟨4, []⟩).grad_output_type = .Float)
          ∧ ((scenarioA ⟨4, []⟩).grad_output_type = .Float
              ∨ (scenarioA ⟨4, []⟩).grad_output_type = .Double)
          ∧ ((scenarioA ⟨4, []⟩).host_weights_type = .Float
              ∨ (scenarioA ⟨4, []⟩).host_weights_type = .Double
              ∨ (scenarioA ⟨4, []⟩).host_weights_type = .Half))
    ∧ (select_path "approx_rowwise_adagrad" (scenarioA ⟨4, []⟩).host_weights_type
          (scenarioA ⟨4, []⟩).grad_output_type = .not_implemented
        ↔ ¬ (((scenarioA ⟨4, []⟩).grad_output_type = .Float
                ∨ (scenarioA ⟨4, []⟩).grad_output_type = .Double)
              ∧ ((scenarioA ⟨4, []⟩).host_weights_type = .Float
                  ∨ (scenarioA ⟨4, []⟩).host_weights_type = .Double
                  ∨ (scenarioA ⟨4, []⟩).host_weights_type = .Half)))
    ∧ split_embedding_backward_codegen_cpu "approx_rowwise_adagrad" record idle_kernel [(0, 2)] (scenarioA ⟨4, []⟩) []
        = (match select_path "approx_rowwise_adagrad" (scenarioA ⟨4, []⟩).host_weights_type
              (scenarioA ⟨4, []⟩).grad_output_type with
           | .fused =>
             parallel_for
               (fused_slice idle_kernel (scenarioA ⟨4, []⟩) (B_of (scenarioA ⟨4, []⟩))
                 (scenarioA ⟨4, []⟩).grad_output.size1) [(0, 2)] []
           | .generic =>
             .done (generic_loop record (scenarioA ⟨4, []⟩) (T_of (scenarioA ⟨4, []⟩))
               (B_of (scenarioA ⟨4, []⟩)) [])
           | .not_implemented => .failed .not_implemented []) :=
  path_selection "approx_rowwise_adagrad" record idle_kernel [(0, 2)] (scenarioA ⟨4, []⟩) []
    (by decide)

/-- Counterexample to C10 as stated: with half-precision weights and gradient (a
type pair other than single/single) the rowwise-adaptive instance selects neither
path: the dispatch on the gradient type raises, the generic loop does not run and
nothing is recorded. The same holds for any other optimizer. -/
theorem half_gradient_counterexample :
    accepted half_args
    ∧ select_path "approx_rowwise_adagrad" half_args.host_weights_type
        half_args.grad_output_type = .not_implemented
    ∧ split_embedding_backward_codegen_cpu "approx_rowwise_adagrad" record idle_kernel [(0, 2)] half_args []
        = .failed .not_implemented []
    ∧ split_embedding_backward_codegen_cpu "approx_sgd" record idle_kernel [(0, 2)] half_args []
        = .failed .not_implemented []
    ∧ generic_loop record half_args (T_of half_args) (B_of half_args) [] ≠ [] := by
  refine ⟨by decide, by decide, by decide, by decide, ?_⟩
  decide!

/-! ## C11: the row count the scan resolves -/

theorem rd_nat (xs : List Int) (n : Nat) : rd xs (n : Int) = xs.getD n 0 := by
  unfold rd
  rw [if_neg (by omega)]
  simp only [Int.toNat_ofNat]
  rfl

/-- The scan over the entries from position `n` on finds `h` exactly when `h` is
the difference at the first position `k >= n` whose entry differs from `base`. -/
theorem hash_size_scan_some (cumsum : List Int) (base h : Int) (m n : Nat)
    (hm : cumsum.length - n = m) :
    hash_size_scan base (cumsum.drop n) = some h
      ↔ ∃ k : Nat, n ≤ k ∧ k < cumsum.length ∧ cumsum.getD k 0 - base ≠ 0
          ∧ (∀ j : Nat, n ≤ j → j < k → cumsum.getD j 0 - base = 0)
          ∧ h = cumsum.getD k 0 - base := by
  induction m generalizing n with
  | zero =>
    rw [List.drop_eq_nil_of_le (by omega)]
    simp only [hash_size_scan]
    constructor
    · intro hc
      cases hc
    · rintro ⟨k, h1, h2, _⟩
      omega
  | succ m ih =>
    have hn : n < cumsum.length := by omega
    rw [List.drop_eq_getElem_cons hn]
    simp only [hash_size_scan]
    have hget : cumsum.getD n 0 = cumsum[n] := List.getD_eq_getElem _ _ hn
    by_cases hz : cumsum[n] - base = 0
    · rw [if_pos hz, ih (n + 1) (by omega)]
      constructor
      · rintro ⟨k, h1, h2, h3, h4, h5⟩
        refine ⟨k, by omega, h2, h3, ?_, h5⟩
        intro j hj1 hj2
        rcases Nat.eq_or_lt_of_le hj1 with hj | hj
        · rw [← hj, hget]
          exact hz
        · exact h4 j (by omega) hj2
      · rintro ⟨k, h1, h2, h3, h4, h5⟩
        have hk : k ≠ n := by
          intro hkn
          rw [hkn, hget] at h3
          exact h3 hz
        exact ⟨k, by omega, h2, h3, fun j hj1 hj2 => h4 j (by omega) hj2, h5⟩
    · rw [if_neg hz]
      constructor
      · intro hs
        simp only [Option.some.injEq] at hs
        refine ⟨n, le_refl n, hn, by rw [hget]; exact hz, ?_, by rw [hget]; exact hs.symm⟩
        intro j hj1 hj2
        omega
      · rintro ⟨k, h1, h2, h3, h4, h5⟩
        have hk : k = n := by
          by_contra hne
          have := h4 n (le_refl n) (by omega)
          rw [hget] at this
          exact hz this
        rw [h5, hk, hget]

/-- The value `hash_size` of table `t`, in positions of `hash_size_cumsum`: the scan
resolves `h` exactly when `h` is the difference to entry `t` at the first position
`k > t` inside the array whose entry differs from entry `t`. -/
theorem hash_size_of_some (cumsum : List Int) (t h : Int) :
    hash_size_of cumsum t = some h
      ↔ ∃ k : Int, t < k ∧ k < (cumsum.length : Int) ∧ 0 ≤ t ∧ rd cumsum k ≠ rd cumsum t
          ∧ (∀ j : Int, t < j → j < k → rd cumsum j = rd cumsum t)
          ∧ h = rd cumsum k - rd cumsum t := by
  unfold hash_size_of
  by_cases ht : t < 0
  · rw [if_pos ht]
    constructor
    · intro hc
      cases hc
    · rintro ⟨k, _, _, h0, _⟩
      omega
  · rw [if_neg ht, hash_size_scan_some cumsum (rd cumsum t) h _ (t + 1).toNat rfl]
    constructor
    · rintro ⟨k, h1, h2, h3, h4, h5⟩
      refine ⟨(k : Int), by omega, by omega, by omega, ?_, ?_, ?_⟩
      · rw [rd_nat]
        intro he
        exact h3 (by omega)
      · intro j hj1 hj2
        have hj : j = ((j.toNat : Nat) : Int) := by omega
        rw [hj, rd_nat]
        have := h4 j.toNat (by omega) (by omega)
        omega
      · rw [rd_nat]
        exact h5
    · rintro ⟨k, h1, h2, h0, h3, h4, h5⟩
      have hk : k = ((k.toNat : Nat) : Int) := by omega
      rw [hk, rd_nat] at h3 h5
      refine ⟨k.toNat, by omega, by omega, ?_, ?_, h5⟩
      · intro he
        exact h3 (by omega)
      · intro j hj1 hj2
        have := h4 (j : Int) (by omega) (by omega)
        rw [rd_nat] at this
        omega

/-- C11. Whenever the forward scan for table `t` stays inside the row-count
cumulative array and resolves `h`, there is a smallest position `k > t` whose entry
differs from entry `t`, and `h` is the difference of the two entries. Hence `h` is
never 0; `h` is table `t`'s own row count `cumsum[t+1] - cumsum[t]` whenever that is
not 0; and for a zero-row table `t` it is the row count `cumsum[k] - cumsum[k-1]` of
table `k - 1`, the first table from `t` on that has rows (the tables `t, ..., k-2`
have none). Monotonicity of the array is not needed. -/
theorem hash_size_resolved (cumsum : List Int) (t h : Int)
    (hs : hash_size_of cumsum t = some h) :
    ∃ k : Int, t < k ∧ k < (cumsum.length : Int)
      ∧ rd cumsum k ≠ rd cumsum t
      ∧ (∀ j : Int, t < j → j < k → rd cumsum j = rd cumsum t)
      ∧ h = rd cumsum k - rd cumsum t
      ∧ h ≠ 0
      ∧ (rd cumsum (t + 1) - rd cumsum t ≠ 0 → h = rd cumsum (t + 1) - rd cumsum t)
      ∧ (rd cumsum (t + 1) - rd cumsum t = 0 →
          h = rd cumsum k - rd cumsum (k - 1)
          ∧ rd cumsum k - rd cumsum (k - 1) ≠ 0
          ∧ ∀ j : Int, t ≤ j → j < k - 1 → rd cumsum (j + 1) - rd cumsum j = 0) := by
  obtain ⟨k, h1, h2, _, h3, h4, h5⟩ := (hash_size_of_some cumsum t h).mp hs
  have hprev : rd cumsum (k - 1) = rd cumsum t := by
    rcases eq_or_lt_of_le (show t + 1 ≤ k by omega) with he | hl
    · have : k - 1 = t := by omega
      rw [this]
    · exact h4 (k - 1) (by omega) (by omega)
  refine ⟨k, h1, h2, h3, h4, h5, ?_, ?_, ?_⟩
  · rw [h5]
    intro hz
    exact h3 (by omega)
  · intro hown
    have hk : k = t + 1 := by
      by_contra hne
      have := h4 (t + 1) (by omega) (by omega)
      exact hown (by omega)
    rw [h5, hk]
  · intro hown
    refine ⟨by rw [h5, hprev], by rw [hprev]; intro hz; exact h3 (by omega), ?_⟩
    intro j hj1 hj2
    have e1 : rd cumsum (j + 1) = rd cumsum t := h4 (j + 1) (by omega) (by omega)
    have e2 : rd cumsum j = rd cumsum t := by
      rcases eq_or_lt_of_le hj1 with he | hl
      · rw [← he]
      · exact h4 j hl (by omega)
    omega

/-- Witness for C11: in the array `[0, 3, 3, 7]` table 1 has no rows and the scan
resolves the row count 4 of table 2. -/
theorem hash_size_resolved_witness :
    ∃ k : Int, 1 < k ∧ k < (([0, 3, 3, 7] : List Int).length : Int)
      ∧ rd [0, 3, 3, 7] k ≠ rd ([0, 3, 3, 7] : List Int) 1
      ∧ (∀ j : Int, 1 < j → j < k → rd [0, 3, 3, 7] j = rd ([0, 3, 3, 7] : List Int) 1)
      ∧ 4 = rd [0, 3, 3, 7] k - rd ([0, 3, 3, 7] : List Int) 1
      ∧ (4 : Int) ≠ 0
      ∧ (rd [0, 3, 3, 7] (1 + 1) - rd ([0, 3, 3, 7] : List Int) 1 ≠ 0 →
          4 = rd [0, 3, 3, 7] (1 + 1) - rd ([0, 3, 3, 7] : List Int) 1)
      ∧ (rd [0, 3, 3, 7] (1 + 1) - rd ([0, 3, 3, 7] : List Int) 1 = 0 →
          4 = rd [0, 3, 3, 7] k - rd ([0, 3, 3, 7] : List Int) (k - 1)
          ∧ rd [0, 3, 3, 7] k - rd ([0, 3, 3, 7] : List Int) (k - 1) ≠ 0
          ∧ ∀ j : Int, 1 ≤ j → j < k - 1 →
              rd [0, 3, 3, 7] (j + 1) - rd ([0, 3, 3, 7] : List Int) j = 0) :=
  hash_size_resolved [0, 3, 3, 7] 1 4 (by decide)

/-! ## C12: the positions the scan reads -/

/-- A non-decreasing sequence is monotone on its positions. -/
theorem nondecreasing_le (xs : List Int) (h : nondecreasing xs) (i : Int) (n : Nat)
    (hi : 0 ≤ i) (hn : i + (n : Int) ≤ (xs.length : Int) - 1) :
    rd xs i ≤ rd xs (i + (n : Int)) := by
  induction n with
  | zero => simp
  | succ n ih =>
    have h1 := ih (by push_cast at hn ⊢; omega)
    have h2 := h (i + (n : Int)) ((mem_int_range _ _ _).mpr ⟨by omega, by push_cast at hn; omega⟩)
    have h3 : i + ((n + 1 : Nat) : Int) = i + (n : Int) + 1 := by push_cast; ring
    rw [h3]
    exact le_trans h1 h2

theorem nondecreasing_mono (xs : List Int) (h : nondecreasing xs) (i j : Int)
    (hi : 0 ≤ i) (hij : i ≤ j) (hj : j ≤ (xs.length : Int) - 1) : rd xs i ≤ rd xs j := by
  have := nondecreasing_le xs h i (j - i).toNat hi (by omega)
  have e : i + (((j - i).toNat : Nat) : Int) = j := by omega
  rw [e] at this
  exact this

/-- The positions the scan reads start at `pos`; they stay below `pos + length`
when the scan resolves a value, and reach `pos + length`, one past the entries, when
it does not. -/
theorem hash_size_scan_reads_bounds (base : Int) (l : List Int) (pos : Int) :
    (∀ p ∈ hash_size_scan_reads base pos l, pos ≤ p ∧ p ≤ pos + (l.length : Int))
    ∧ ((∃ h, hash_size_scan base l = some h) →
        ∀ p ∈ hash_size_scan_reads base pos l, p < pos + (l.length : Int))
    ∧ (hash_size_scan base l = none →
        pos + (l.length : Int) ∈ hash_size_scan_reads base pos l) := by
  induction l generalizing pos with
  | nil =>
    simp only [hash_size_scan_reads, hash_size_scan, List.mem_singleton, List.length_nil]
    refine ⟨fun p hp => by subst hp; simp, ?_, fun _ => by simp⟩
    rintro ⟨h, hc⟩
    cases hc
  | cons x rest ih =>
    obtain ⟨i1, i2, i3⟩ := ih (pos + 1)
    simp only [hash_size_scan_reads, hash_size_scan, List.length_cons]
    by_cases hz : x - base = 0
    · simp only [if_pos hz, List.mem_cons]
      refine ⟨?_, ?_, ?_⟩
      · rintro p (hp | hp)
        · subst hp
          push_cast
          omega
        · have := i1 p hp
          push_cast
          omega
      · rintro hs p (hp | hp)
        · subst hp
          push_cast
          omega
        · have := i2 hs p hp
          push_cast
          omega
      · intro hn
        right
        have := i3 hn
        have e : pos + ((rest.length + 1 : Nat) : Int) = pos + 1 + (rest.length : Int) := by
          push_cast
          ring
        rw [e]
        exact this
    · simp only [if_neg hz, List.mem_singleton]
      refine ⟨?_, ?_, ?_⟩
      · intro p hp
        subst hp
        push_cast
        omega
      · intro _ p hp
        subst hp
        push_cast
        omega
      · intro hc
        cases hc

/-- Where the scan stays inside the array. For every row-count cumulative array with
`T + 1` entries and every table `t` in `[0, T)` with `cumsum[T] != cumsum[t]` (for
non-decreasing entries: table `t` or a table after it has rows), the forward scan
that computes `H_t` ends with a value, having read only positions in `[0, T]` of the
array. Monotonicity is not needed for this. -/
theorem hash_size_scan_in_bounds (cumsum : List Int) (T t : Int)
    (hlen : (cumsum.length : Int) = T + 1)
    (ht0 : 0 ≤ t) (ht : t < T) (hne : rd cumsum T ≠ rd cumsum t) :
    (∃ h, hash_size_of cumsum t = some h)
    ∧ ∀ p ∈ hash_size_reads cumsum t, 0 ≤ p ∧ p ≤ T := by
  have hl : (((cumsum.drop (t + 1).toNat).length : Nat) : Int) = T - t := by
    rw [List.length_drop]
    omega
  obtain ⟨b1, b2, _⟩ :=
    hash_size_scan_reads_bounds (rd cumsum t) (cumsum.drop (t + 1).toNat) (t + 1)
  have hof : hash_size_of cumsum t
      = hash_size_scan (rd cumsum t) (cumsum.drop (t + 1).toNat) := by
    unfold hash_size_of
    rw [if_neg (by omega)]
  have hex : ∃ h, hash_size_of cumsum t = some h := by
    by_contra hno
    have hstep : ∀ n : Nat, ∀ k : Int, k = t + 1 + (n : Int) → k ≤ T →
        rd cumsum k = rd cumsum t := by
      intro n
      induction n using Nat.strong_induction_on with
      | _ n ihn =>
        intro k hk hkT
        by_contra hd
        apply hno
        refine ⟨rd cumsum k - rd cumsum t, (hash_size_of_some cumsum t _).mpr
          ⟨k, by omega, by omega, ht0, hd, ?_, rfl⟩⟩
        intro j hj1 hj2
        exact ihn (j - (t + 1)).toNat (by omega) j (by omega) (by omega)
    exact hne (hstep (T - (t + 1)).toNat T (by omega) (le_refl T))
  refine ⟨hex, ?_⟩
  intro p hp
  unfold hash_size_reads at hp
  rcases List.mem_cons.mp hp with hp | hp
  · omega
  · have h1 := b1 p hp
    have h2 := b2 (by rw [← hof]; exact hex) p hp
    omega

/-- When table `t` and all tables after it have no rows (`cumsum[T] = cumsum[t]` in
a non-decreasing array of `T + 1` entries) the scan finds no value inside the array
and reads position `T + 1`. -/
theorem hash_size_scan_past_end (cumsum : List Int) (T t : Int)
    (hlen : (cumsum.length : Int) = T + 1) (hmono : nondecreasing cumsum)
    (ht0 : 0 ≤ t) (ht : t < T) (heq : rd cumsum T = rd cumsum t) :
    hash_size_of cumsum t = none ∧ T + 1 ∈ hash_size_reads cumsum t := by
  have hl : (((cumsum.drop (t + 1).toNat).length : Nat) : Int) = T - t := by
    rw [List.length_drop]
    omega
  obtain ⟨_, _, b3⟩ :=
    hash_size_scan_reads_bounds (rd cumsum t) (cumsum.drop (t + 1).toNat) (t + 1)
  have hof : hash_size_of cumsum t
      = hash_size_scan (rd cumsum t) (cumsum.drop (t + 1).toNat) := by
    unfold hash_size_of
    rw [if_neg (by omega)]
  have hnone : hash_size_of cumsum t = none := by
    rw [Option.eq_none_iff_forall_not_mem]
    intro h hmem
    obtain ⟨k, h1, h2, _, h3, _, _⟩ := (hash_size_of_some cumsum t h).mp hmem
    have m1 := nondecreasing_mono cumsum hmono t k ht0 (le_of_lt h1) (by omega)
    have m2 := nondecreasing_mono cumsum hmono k T (by omega) (by omega) (by omega)
    exact h3 (by omega)
  refine ⟨hnone, ?_⟩
  unfold hash_size_reads
  right
  have := b3 (by rw [← hof]; exact hnone)
  rw [hl] at this
  have e : t + 1 + (T - t) = T + 1 := by ring
  rw [e] at this
  exact this

/-- The scan in the array `[0, 3, 3, 7]` with `T = 3` for table 1, which has no rows:
it reads positions 1, 2 and 3. -/
theorem hash_size_scan_in_bounds_witness :
    (∃ h, hash_size_of [0, 3, 3, 7] 1 = some h)
    ∧ ∀ p ∈ hash_size_reads [0, 3, 3, 7] 1, 0 ≤ p ∧ p ≤ 3 :=
  hash_size_scan_in_bounds [0, 3, 3, 7] 3 1 (by decide) (by decide) (by decide) (by decide)

/-- C12. The forward scan that computes `H_t` is meant to end having read only
positions in `[0, T]` of a row-count cumulative array with `T + 1` non-decreasing
entries, for every table `t` in `[0, T)`, also when table `t` and all tables after it
have no rows. The code on the array `[0, 5, 5]` (`T = 2`) for table 1, the last
table, which has no rows: the loop has no bound on `t_temp`, reads positions 2 and 3
after position 1, and position 3 lies past the last entry, no non-zero difference
having been found. On the input `trailing_empty_args`, which the entry point accepts,
the fused path reaches that read in its second run. -/
theorem trailing_empty_table_counterexample :
    (([0, 5, 5] : List Int).length : Int) = 2 + 1
    ∧ nondecreasing [0, 5, 5]
    ∧ hash_size_of [0, 5, 5] 1 = none
    ∧ hash_size_reads [0, 5, 5] 1 = [1, 2, 3]
    ∧ ¬ (∀ p ∈ hash_size_reads [0, 5, 5] 1, 0 ≤ p ∧ p ≤ 2)
    ∧ accepted trailing_empty_args
    ∧ trailing_empty_args.hash_size_cumsum = [0, 5, 5]
    ∧ call_runs trailing_empty_args [(0, 2)] = [⟨0, 0, 1⟩, ⟨1, 0, 1⟩]
    ∧ split_embedding_backward_codegen_cpu "approx_rowwise_adagrad" no_update picky_kernel
        [(0, 2)] trailing_empty_args [] = .undefined .read_out_of_bounds := by
  decide

/-! ## C13: the sub-ranges a kernel run receives -/

theorem int_range_succ_right (lo hi : Int) (h : lo ≤ hi) :
    int_range lo (hi + 1) = int_range lo hi ++ [hi] := by
  unfold int_range
  have e : (hi + 1 - lo).toNat = (hi - lo).toNat + 1 := by omega
  rw [e, List.range_succ, List.map_append]
  simp only [List.map_cons, List.map_nil, List.append_cancel_left_eq, List.cons.injEq, and_true]
  omega

theorem int_range_append (lo mid hi : Int) (h1 : lo ≤ mid) (h2 : mid ≤ hi) :
    int_range lo mid ++ int_range mid hi = int_range lo hi := by
  have key : ∀ n : Nat, int_range lo mid ++ int_range mid (mid + (n : Int))
      = int_range lo (mid + (n : Int)) := by
    intro n
    induction n with
    | zero => simp [int_range_empty mid mid (le_refl _)]
    | succ n ih =>
      have e : mid + ((n + 1 : Nat) : Int) = mid + (n : Int) + 1 := by push_cast; ring
      rw [e, int_range_succ_right mid _ (by omega), int_range_succ_right lo _ (by omega),
        ← List.append_assoc, ih]
  have := key (hi - mid).toNat
  have e : mid + (((hi - mid).toNat : Nat) : Int) = hi := by omega
  rw [e] at this
  exact this

/-- Consecutive ranges with non-decreasing boundaries `f lo <= f (lo+1) <= ...`
concatenate to the range from the first boundary to the last. -/
theorem flatMap_int_range_consecutive (f : Int → Int) (lo hi : Int) (h : lo ≤ hi)
    (hf : ∀ b, lo ≤ b → b < hi → f b ≤ f (b + 1)) :
    (int_range lo hi).flatMap (fun b => int_range (f b) (f (b + 1)))
      = int_range (f lo) (f hi) := by
  have key : ∀ n : Nat, lo + (n : Int) ≤ hi →
      (int_range lo (lo + (n : Int))).flatMap (fun b => int_range (f b) (f (b + 1)))
          = int_range (f lo) (f (lo + (n : Int)))
        ∧ f lo ≤ f (lo + (n : Int)) := by
    intro n
    induction n with
    | zero =>
      intro _
      simp [int_range_empty]
    | succ n ih =>
      intro hn
      have hn1 : lo + (n : Int) ≤ hi := by push_cast at hn; omega
      obtain ⟨i1, i2⟩ := ih hn1
      have e : lo + ((n + 1 : Nat) : Int) = lo + (n : Int) + 1 := by push_cast; ring
      have hstep := hf (lo + (n : Int)) (by omega) (by push_cast at hn; omega)
      rw [e, int_range_succ_right lo _ (by omega), List.flatMap_append, i1]
      simp only [List.flatMap_cons, List.flatMap_nil, List.append_nil]
      exact ⟨int_range_append _ _ _ i2 hstep, le_trans i2 hstep⟩
  have := (key (hi - lo).toNat (by omega)).1
  have e : lo + (((hi - lo).toNat : Nat) : Int) = hi := by omega
  rw [e] at this
  exact this

/-- The sub-ranges of a run that lies inside its table. For every kernel run over a
table `t` in `[0, T)` and samples `[b_begin, b_end)` with
`0 <= b_begin <= b_end <= B` (what the lambda forms when `B, T < 2^31`, see
`fused_slice_runs_bounds`), on a non-decreasing
`bag_offsets` sequence of `T * B + 1` entries: the sample count passed is
`b_end - b_begin`; the indices sub-range starts at `bag_offsets[t*B + b_begin]`; the
index count passed is `bag_offsets[t*B + b_end] - bag_offsets[t*B + b_begin]`, is
non-negative and is the sum of the bag lengths `L(t, b)` for `b` in
`[b_begin, b_end)`; the index positions of the sub-range are the concatenation of
the positions of those bags; and the position `t*B + b_end` read lies in
`[0, T*B]`, inside the sequence. -/
theorem kernel_call_subranges (a : Args) (T B grad_stride : Int) (r : SliceRun)
    (c : KernelCall)
    (hlen : (a.offsets.length : Int) = T * B + 1) (hmono : nondecreasing a.offsets)
    (ht : 0 ≤ r.t ∧ r.t < T)
    (hb : 0 ≤ r.b_begin ∧ r.b_begin ≤ r.b_end ∧ r.b_end ≤ B)
    (hc : kernel_call a B grad_stride r = some c) :
    c.output_size = r.b_end - r.b_begin
    ∧ c.offsets_at = r.t * B + r.b_begin
    ∧ c.indices_at = rd a.offsets (r.t * B + r.b_begin)
    ∧ c.index_size
        = rd a.offsets (r.t * B + r.b_end) - rd a.offsets (r.t * B + r.b_begin)
    ∧ 0 ≤ c.index_size
    ∧ c.index_size = ((int_range r.b_begin r.b_end).map (bag_length a B r.t)).sum
    ∧ int_range c.indices_at (c.indices_at + c.index_size)
        = (int_range r.b_begin r.b_end).flatMap (bag_positions a B r.t)
    ∧ 0 ≤ r.t * B + r.b_end ∧ r.t * B + r.b_end ≤ T * B
    ∧ r.t * B + r.b_end < (a.offsets.length : Int) := by
  obtain ⟨ht0, ht1⟩ := ht
  obtain ⟨hb0, hb1, hb2⟩ := hb
  have hB : 0 ≤ B := by omega
  have p0 : 0 ≤ r.t * B := mul_nonneg ht0 hB
  have p1 : (r.t + 1) * B ≤ T * B := mul_le_mul_of_nonneg_right (by omega) hB
  have p2 : r.t * B + r.b_end ≤ T * B := by nlinarith
  -- the arguments, read off the call
  unfold kernel_call at hc
  cases hh : hash_size_of a.hash_size_cumsum r.t with
  | none =>
    rw [hh] at hc
    cases hc
  | some hash_size =>
    rw [hh] at hc
    simp only [Option.some.injEq] at hc
    subst hc
    have hstep : ∀ b, r.b_begin ≤ b → b < r.b_end →
        rd a.offsets (r.t * B + b) ≤ rd a.offsets (r.t * B + (b + 1)) := by
      intro b h1 h2
      exact nondecreasing_mono a.offsets hmono _ _ (by omega) (by omega) (by omega)
    have hsum := sum_int_range_telescope (fun b => rd a.offsets (r.t * B + b))
      r.b_begin r.b_end hb1
    have hcat := flatMap_int_range_consecutive (fun b => rd a.offsets (r.t * B + b))
      r.b_begin r.b_end hb1 hstep
    have hmon := nondecreasing_mono a.offsets hmono (r.t * B + r.b_begin)
      (r.t * B + r.b_end) (by omega) (by omega) (by omega)
    refine ⟨rfl, rfl, rfl, rfl, ?_, ?_, ?_, by omega, p2, by omega⟩
    · show 0 ≤ rd a.offsets (r.t * B + r.b_end) - rd a.offsets (r.t * B + r.b_begin)
      omega
    · show rd a.offsets (r.t * B + r.b_end) - rd a.offsets (r.t * B + r.b_begin) = _
      rw [← hsum]
      congr 1
      apply List.map_congr_left
      intro b _
      simp only [bag_length, add_assoc]
    · show int_range (rd a.offsets (r.t * B + r.b_begin))
          (rd a.offsets (r.t * B + r.b_begin)
            + (rd a.offsets (r.t * B + r.b_end) - rd a.offsets (r.t * B + r.b_begin))) = _
      have e : rd a.offsets (r.t * B + r.b_begin)
          + (rd a.offsets (r.t * B + r.b_end) - rd a.offsets (r.t * B + r.b_begin))
            = rd a.offsets (r.t * B + r.b_end) := by ring
      rw [e, ← hcat]
      congr 1
      funext b
      simp only [bag_positions, add_assoc]

/-- The sub-ranges of the run over table 1 and samples `[0, 2)` of `two_table_args`,
which the lambda forms on the slice `[1, 4)`. -/
theorem kernel_call_subranges_witness :
    (⟨1, 0, 2⟩ : SliceRun) ∈ fused_slice_runs 2 1 4
    ∧ (2 : Int) = 2 - 0
    ∧ (2 : Int) = 1 * 2 + 0
    ∧ (3 : Int) = rd two_table_args.offsets (1 * 2 + 0)
    ∧ (3 : Int) = rd two_table_args.offsets (1 * 2 + 2) - rd two_table_args.offsets (1 * 2 + 0)
    ∧ (0 : Int) ≤ 3
    ∧ (3 : Int) = ((int_range 0 2).map (bag_length two_table_args 2 1)).sum
    ∧ int_range 3 (3 + 3) = (int_range 0 2).flatMap (bag_positions two_table_args 2 1)
    ∧ (0 : Int) ≤ 1 * 2 + 2 ∧ (1 : Int) * 2 + 2 ≤ 2 * 2
    ∧ (1 : Int) * 2 + 2 < (two_table_args.offsets.length : Int) :=
  ⟨by decide,
    kernel_call_subranges two_table_args 2 2 3 ⟨1, 0, 2⟩
      ⟨2, 3, 2, 3, 3, 4, 1, 4, 3, 2, 1 / 100, -(1 / 10)⟩
      (by decide) (by decide) (by decide) (by decide) (by decide!)⟩

/-- C13. Every kernel run of the fused path is meant to receive the sample count
`b_end - b_begin` of a sample range of its table and a non-negative index count read
at the position `t*B + b_end <= T*B`, inside a `bag_offsets` sequence of `T*B + 1`
entries. The code at `B = 2^31`, `T = 1` and the slice `[0, 2^31)`, for every input
and gradient stride: its only run is `(t, b_begin, b_end) = (0, 0, -2^31)`, because
the `int` variable `b_end` receives the `int64_t` value `B`; the run reads
`bag_offsets` at position `-2^31`, before the first entry, and whenever the kernel is
called it receives the sample count `-2^31` and an index count formed from that
read. -/
theorem narrowed_run_counterexample :
    fused_slice_runs 2147483648 0 2147483648 = [⟨0, 0, -2147483648⟩]
    ∧ kernel_call_offsets_reads 2147483648 ⟨0, 0, -2147483648⟩ = [0, -2147483648]
    ∧ ¬ (∀ p ∈ kernel_call_offsets_reads 2147483648 ⟨0, 0, -2147483648⟩,
          0 ≤ p ∧ p ≤ 1 * 2147483648)
    ∧ (∀ (a : Args) (grad_stride : Int),
        (kernel_call a 2147483648 grad_stride ⟨0, 0, -2147483648⟩).map
            (fun c => (c.output_size, c.index_size))
          = (hash_size_of a.hash_size_cumsum 0).map
              (fun _ => (-2147483648, rd a.offsets (-2147483648) - rd a.offsets 0))) := by
  refine ⟨by decide, by decide, by decide, ?_⟩
  intro a grad_stride
  unfold kernel_call
  cases hash_size_of a.hash_size_cumsum 0 <;> rfl

/-! ## C14: array accesses of the generic path -/

theorem apply_runs_append {σ : Type} (kernel : KernelCall → σ → Bool × σ) (a : Args)
    (B gs : Int) (l1 l2 : List SliceRun) (st : σ) :
    apply_runs kernel a B gs (l1 ++ l2) st
      = apply_runs kernel a B gs l2 (apply_runs kernel a B gs l1 st) := by
  induction l1 generalizing st with
  | nil => rfl
  | cons r rest ih =>
    simp only [List.cons_append, apply_runs]
    cases kernel_call a B gs r with
    | none => exact ih st
    | some c => exact ih _

theorem all_succeed_append {σ : Type} (kernel : KernelCall → σ → Bool × σ) (a : Args)
    (B gs : Int) (l1 l2 : List SliceRun) (st : σ) :
    all_succeed kernel a B gs (l1 ++ l2) st
      = (all_succeed kernel a B gs l1 st
          && all_succeed kernel a B gs l2 (apply_runs kernel a B gs l1 st)) := by
  induction l1 generalizing st with
  | nil => simp [all_succeed, apply_runs]
  | cons r rest ih =>
    simp only [List.cons_append, all_succeed, apply_runs]
    cases kernel_call a B gs r with
    | none => simp
    | some c =>
      simp only [List.append_eq, ih, Bool.and_assoc]

/-- Runs that all succeed complete the slice with the state they produce. -/
theorem fused_runs_done {σ : Type} (kernel : KernelCall → σ → Bool × σ) (a : Args)
    (B gs : Int) (runs : List SliceRun) (st : σ)
    (h : all_succeed kernel a B gs runs st = true) :
    fused_runs kernel a B gs runs st = .done (apply_runs kernel a B gs runs st) := by
  induction runs generalizing st with
  | nil => rfl
  | cons r rest ih =>
    simp only [all_succeed] at h
    simp only [fused_runs, apply_runs]
    cases hc : kernel_call a B gs r with
    | none =>
      rw [hc] at h
      cases h
    | some c =>
      rw [hc] at h
      simp only [Bool.and_eq_true] at h
      rcases hk : kernel c st with ⟨ok, st1⟩
      rw [hk] at h
      obtain ⟨hok, hrest⟩ := h
      simp only at hok hrest
      subst hok
      simp only [hk]
      exact ih st1 hrest

/-- The first run that returns `false` ends the slice: the result is the failure of
`TORCH_CHECK(success)` with the state that run left, whatever runs would follow. -/
theorem fused_runs_first_failure {σ : Type} (kernel : KernelCall → σ → Bool × σ) (a : Args)
    (B gs : Int) (pre post : List SliceRun) (r : SliceRun) (c : KernelCall) (st : σ)
    (hpre : all_succeed kernel a B gs pre st = true)
    (hc : kernel_call a B gs r = some c)
    (hfail : (kernel c (apply_runs kernel a B gs pre st)).1 = false) :
    fused_runs kernel a B gs (pre ++ r :: post) st
      = .failed .check_success (kernel c (apply_runs kernel a B gs pre st)).2 := by
  induction pre generalizing st with
  | nil =>
    simp only [apply_runs] at hfail
    simp only [List.nil_append, fused_runs, hc, apply_runs]
    rcases hk : kernel c st with ⟨ok, st1⟩
    rw [hk] at hfail
    simp only at hfail
    rw [hfail]
  | cons r0 rest ih =>
    simp only [all_succeed] at hpre
    simp only [apply_runs] at hfail ⊢
    simp only [List.cons_append, fused_runs]
    cases hc0 : kernel_call a B gs r0 with
    | none =>
      rw [hc0] at hpre
      cases hpre
    | some c0 =>
      rw [hc0] at hpre hfail
      simp only [Bool.and_eq_true] at hpre
      simp only at hfail ⊢
      rcases hk : kernel c0 st with ⟨ok, st1⟩
      rw [hk] at hpre hfail
      simp only at hpre hfail ⊢
      rw [hpre.1]
      exact ih st1 hpre.2 hfail

theorem logged_all_succeed {σ : Type} (kernel : KernelCall → σ → Bool × σ) (a : Args)
    (B gs : Int) (l : List SliceRun) (st : σ) (log : List KernelCall) :
    all_succeed (logged kernel) a B gs l (st, log) = all_succeed kernel a B gs l st := by
  induction l generalizing st log with
  | nil => rfl
  | cons r rest ih =>
    simp only [all_succeed]
    cases kernel_call a B gs r with
    | none => rfl
    | some c => simp only [logged, ih]

theorem logged_apply_runs {σ : Type} (kernel : KernelCall → σ → Bool × σ) (a : Args)
    (B gs : Int) (l : List SliceRun) (st : σ) (log : List KernelCall) :
    apply_runs (logged kernel) a B gs l (st, log)
      = (apply_runs kernel a B gs l st, log ++ l.filterMap (kernel_call a B gs)) := by
  induction l generalizing st log with
  | nil => simp [apply_runs]
  | cons r rest ih =>
    simp only [apply_runs, List.filterMap_cons]
    cases kernel_call a B gs r with
    | none => exact ih st log
    | some c => simp only [logged, ih, List.append_assoc, List.singleton_append]

/-- Slices whose runs all succeed complete the parallel loop. -/
theorem parallel_for_done {σ : Type} (kernel : KernelCall → σ → Bool × σ) (a : Args)
    (B gs : Int) (slices : List (Int × Int)) (st : σ)
    (h : all_succeed kernel a B gs (slices.flatMap fun s => fused_slice_runs B s.1 s.2) st
      = true) :
    parallel_for (fused_slice kernel a B gs) slices st
      = .done (apply_runs kernel a B gs (slices.flatMap fun s => fused_slice_runs B s.1 s.2)
          st) := by
  induction slices generalizing st with
  | nil => rfl
  | cons s rest ih =>
    obtain ⟨x, y⟩ := s
    rw [List.flatMap_cons, all_succeed_append, Bool.and_eq_true] at h
    rw [List.flatMap_cons, apply_runs_append]
    simp only [parallel_for, fused_slice]
    rw [fused_runs_done kernel a B gs _ st h.1]
    exact ih _ h.2

/-- A slice that raises keeps the parallel loop from returning normally. -/
theorem parallel_for_not_done {σ : Type} (f : Int → Int → σ → Result σ)
    (before after : List (Int × Int)) (x y : Int) (st s0 s1 : σ) (e : Err)
    (hb : parallel_for f before st = .done s0) (hf : f x y s0 = .failed e s1) (st1 : σ) :
    parallel_for f (before ++ (x, y) :: after) st ≠ .done st1 := by
  induction before generalizing st with
  | nil =>
    simp only [parallel_for, Result.done.injEq] at hb
    subst hb
    simp only [List.nil_append, parallel_for, hf]
    split <;> simp
  | cons s rest ih =>
    obtain ⟨x0, y0⟩ := s
    simp only [parallel_for] at hb
    simp only [List.cons_append, parallel_for]
    split at hb
    · rename_i s2 heq
      exact ih s2 hb
    · split at hb <;> simp at hb
    · simp at hb

/-- When the slice that raises is the last one, the parallel loop raises its error
with the state that slice left. -/
theorem parallel_for_last_fails {σ : Type} (f : Int → Int → σ → Result σ)
    (before : List (Int × Int)) (x y : Int) (st s0 s1 : σ) (e : Err)
    (hb : parallel_for f before st = .done s0) (hf : f x y s0 = .failed e s1) :
    parallel_for f (before ++ [(x, y)]) st = .failed e s1 := by
  induction before generalizing st with
  | nil =>
    simp only [parallel_for, Result.done.injEq] at hb
    subst hb
    simp only [List.nil_append, parallel_for, hf]
  | cons s rest ih =>
    obtain ⟨x0, y0⟩ := s
    simp only [parallel_for] at hb
    simp only [List.cons_append, parallel_for]
    split at hb
    · rename_i s2 heq
      exact ih s2 hb
    · split at hb <;> simp at hb
    · simp at hb

/-- C15. In the fused path, run sequentially with the kernel as a function from
arguments and buffers to a success flag and buffers, on an accepted input: let the
slices `before` complete, and let the slice `[x, y)` consist of the runs `pre`, then
`r`, then `post`, where the runs `pre` return `true` and the run `r` returns `false`.
Then the slice fails at `r` with the buffers exactly as `r` left them after the runs
completed before it (no rollback); the kernel calls issued in the slice are those of
`pre` followed by the call of `r`, none of `post`; the call does not return
normally, and when `[x, y)` is the last slice it raises with exactly those buffers.
If every run of every slice returns `true`, the call returns normally with the
buffers the runs produce. -/
theorem fused_failure_no_rollback {σ : Type} (optimizer : String) (upd : σ → UpdateSite → σ)
    (kernel : KernelCall → σ → Bool × σ) (a : Args) (st : σ)
    (before after : List (Int × Int)) (x y : Int) (pre post : List SliceRun)
    (r : SliceRun) (c : KernelCall)
    (hacc : accepted a)
    (hsel : select_path optimizer a.host_weights_type a.grad_output_type = .fused)
    (hbefore : all_succeed kernel a (B_of a) a.grad_output.size1 (call_runs a before) st = true)
    (hruns : fused_slice_runs (B_of a) x y = pre ++ r :: post)
    (hpre : all_succeed kernel a (B_of a) a.grad_output.size1 pre
      (apply_runs kernel a (B_of a) a.grad_output.size1 (call_runs a before) st) = true)
    (hc : kernel_call a (B_of a) a.grad_output.size1 r = some c)
    (hfail : (kernel c (apply_runs kernel a (B_of a) a.grad_output.size1 pre
      (apply_runs kernel a (B_of a) a.grad_output.size1 (call_runs a before) st))).1 = false) :
    fused_slice kernel a (B_of a) a.grad_output.size1 x y
        (apply_runs kernel a (B_of a) a.grad_output.size1 (call_runs a before) st)
      = .failed .check_success
          (kernel c (apply_runs kernel a (B_of a) a.grad_output.size1 pre
            (apply_runs kernel a (B_of a) a.grad_output.size1 (call_runs a before) st))).2
    ∧ fused_slice (logged kernel) a (B_of a) a.grad_output.size1 x y
        (apply_runs kernel a (B_of a) a.grad_output.size1 (call_runs a before) st, [])
      = .failed .check_success
          ((kernel c (apply_runs kernel a (B_of a) a.grad_output.size1 pre
            (apply_runs kernel a (B_of a) a.grad_output.size1 (call_runs a before) st))).2,
           pre.filterMap (kernel_call a (B_of a) a.grad_output.size1) ++ [c])
    ∧ (∀ st1 : σ,
        split_embedding_backward_codegen_cpu optimizer upd kernel
          (before ++ (x, y) :: after) a st ≠ .done st1)
    ∧ split_embedding_backward_codegen_cpu optimizer upd kernel (before ++ [(x, y)]) a st
      = .failed .check_success
          (kernel c (apply_runs kernel a (B_of a) a.grad_output.size1 pre
            (apply_runs kernel a (B_of a) a.grad_output.size1 (call_runs a before) st))).2
    ∧ (∀ slices : List (Int × Int),
        all_succeed kernel a (B_of a) a.grad_output.size1 (call_runs a slices) st = true →
        split_embedding_backward_codegen_cpu optimizer upd kernel slices a st
          = .done (apply_runs kernel a (B_of a) a.grad_output.size1 (call_runs a slices) st)) := by
  obtain ⟨hT, hB, hd⟩ := hacc
  have hentry : ∀ slices : List (Int × Int),
      split_embedding_backward_codegen_cpu optimizer upd kernel slices a st
        = parallel_for (fused_slice kernel a (B_of a) a.grad_output.size1) slices st := by
    intro slices
    rw [entry_eq, if_neg (by omega), if_neg (by omega), if_neg (not_not.mpr hd), hsel]
  have hslice := fused_runs_first_failure kernel a (B_of a) a.grad_output.size1 pre post r c
    _ hpre hc hfail
  have hb := parallel_for_done kernel a (B_of a) a.grad_output.size1 before st hbefore
  have hf : fused_slice kernel a (B_of a) a.grad_output.size1 x y
      (apply_runs kernel a (B_of a) a.grad_output.size1 (call_runs a before) st)
        = .failed .check_success
            (kernel c (apply_runs kernel a (B_of a) a.grad_output.size1 pre
              (apply_runs kernel a (B_of a) a.grad_output.size1 (call_runs a before) st))).2 := by
    unfold fused_slice
    rw [hruns]
    exact hslice
  refine ⟨hf, ?_, ?_, ?_, ?_⟩
  · unfold fused_slice
    rw [hruns]
    have h1 := fused_runs_first_failure (logged kernel) a (B_of a) a.grad_output.size1 pre post
      r c (apply_runs kernel a (B_of a) a.grad_output.size1 (call_runs a before) st, [])
      (by rw [logged_all_succeed]; exact hpre) hc
      (by rw [logged_apply_runs]; exact hfail)
    rw [h1, logged_apply_runs]
    simp [logged]
  · intro st1
    rw [hentry]
    exact parallel_for_not_done _ before after x y st _ _ _ hb hf st1
  · rw [hentry]
    exact parallel_for_last_fails _ before x y st _ _ _ hb hf
  · intro slices hall
    rw [hentry]
    exact parallel_for_done kernel a (B_of a) a.grad_output.size1 slices st hall

/-- Witness for C15: `two_table_args` with the chunks `[0, 2)` and `[2, 4)` and a
kernel that fails on the second table: the first chunk completes, the only run of the
second chunk fails, and its write (the base 4) stays. -/
theorem fused_failure_no_rollback_witness :
    fused_slice picky_kernel two_table_args 2 3 2 4 [0] = .failed .check_success [0, 4]
    ∧ split_embedding_backward_codegen_cpu "approx_rowwise_adagrad" no_update picky_kernel
        [(0, 2), (2, 4)] two_table_args [] = .failed .check_success [0, 4]
    ∧ (fused_slice picky_kernel two_table_args (B_of two_table_args)
          two_table_args.grad_output.size1 2 4
          (apply_runs picky_kernel two_table_args (B_of two_table_args)
            two_table_args.grad_output.size1 (call_runs two_table_args [(0, 2)]) [])
        = .failed .check_success
            (picky_kernel ⟨2, 3, 2, 3, 3, 4, 1, 4, 3, 2, 1 / 100, -(1 / 10)⟩
              (apply_runs picky_kernel two_table_args (B_of two_table_args)
                two_table_args.grad_output.size1 []
                (apply_runs picky_kernel two_table_args (B_of two_table_args)
                  two_table_args.grad_output.size1 (call_runs two_table_args [(0, 2)]) []))).2) :=
  ⟨by decide, by decide,
    (fused_failure_no_rollback "approx_rowwise_adagrad" no_update picky_kernel two_table_args []
      [(0, 2)] [] 2 4 [] [] ⟨1, 0, 2⟩ ⟨2, 3, 2, 3, 3, 4, 1, 4, 3, 2, 1 / 100, -(1 / 10)⟩
      (by decide) (by decide) (by decide) (by decide) (by decide) (by decide!) (by decide)).1⟩

/-! ## C16: what the fused path does not read -/

theorem fused_runs_congr {σ : Type} (kernel : KernelCall → σ → Bool × σ) (a1 a2 : Args)
    (B gs : Int) (h : ∀ r, kernel_call a1 B gs r = kernel_call a2 B gs r)
    (runs : List SliceRun) (st : σ) :
    fused_runs kernel a1 B gs runs st = fused_runs kernel a2 B gs runs st := by
  induction runs generalizing st with
  | nil => rfl
  | cons r rest ih =>
    simp only [fused_runs, h r]
    cases kernel_call a2 B gs r with
    | none => rfl
    | some c =>
      simp only
      rcases kernel c st with ⟨ok, st1⟩
      cases ok with
      | true => exact ih st1
      | false => rfl

/-- C16. When the fused path is selected, two calls that differ only in
`pooling_mode`, in the presence or values of the index weights, or in the
`stochastic_rounding` flag form the same kernel arguments for every run (sample
count, index count, `hash_size`, the weight, gradient and momentum bases, the
indices and bag-offsets sub-ranges, epsilon and the negated learning rate), issue the
same sequence of kernel calls for every chunking, and have the same outcome for every
kernel and every start state. -/
theorem fused_path_ignores_pooling {σ : Type} (optimizer : String) (upd : σ → UpdateSite → σ)
    (kernel : KernelCall → σ → Bool × σ) (slices : List (Int × Int)) (a : Args) (st : σ)
    (pooling_mode : Int) (indice_weights : Option (List ℚ)) (stochastic_rounding : Bool)
    (hsel : select_path optimizer a.host_weights_type a.grad_output_type = .fused) :
    (∀ (B grad_stride : Int) (r : SliceRun),
        kernel_call { a with pooling_mode := pooling_mode, indice_weights := indice_weights,
                             stochastic_rounding := stochastic_rounding } B grad_stride r
          = kernel_call a B grad_stride r)
    ∧ (call_runs { a with pooling_mode := pooling_mode, indice_weights := indice_weights,
                          stochastic_rounding := stochastic_rounding } slices).map
          (kernel_call { a with pooling_mode := pooling_mode, indice_weights := indice_weights,
                                stochastic_rounding := stochastic_rounding }
            (B_of a) a.grad_output.size1)
        = (call_runs a slices).map (kernel_call a (B_of a) a.grad_output.size1)
    ∧ split_embedding_backward_codegen_cpu optimizer upd kernel slices
          { a with pooling_mode := pooling_mode, indice_weights := indice_weights,
                   stochastic_rounding := stochastic_rounding } st
        = split_embedding_backward_codegen_cpu optimizer upd kernel slices a st := by
  have hk : ∀ (B grad_stride : Int) (r : SliceRun),
      kernel_call { a with pooling_mode := pooling_mode, indice_weights := indice_weights,
                           stochastic_rounding := stochastic_rounding } B grad_stride r
        = kernel_call a B grad_stride r := fun _ _ _ => rfl
  refine ⟨hk, rfl, ?_⟩
  rw [entry_eq, entry_eq]
  simp only [hsel]
  have hs : fused_slice kernel
      { a with pooling_mode := pooling_mode, indice_weights := indice_weights,
               stochastic_rounding := stochastic_rounding }
      (B_of a) a.grad_output.size1 = fused_slice kernel a (B_of a) a.grad_output.size1 := by
    funext x y s
    exact fused_runs_congr kernel _ a _ _ (hk _ _) _ s
  show (if T_of a ≤ 0 then Result.failed Err.check_T st
      else if B_of a ≤ 0 then Result.failed Err.check_B st
      else if a.host_weights_dim ≠ 1 then Result.failed Err.check_dim st
      else parallel_for (fused_slice kernel
          { a with pooling_mode := pooling_mode, indice_weights := indice_weights,
                   stochastic_rounding := stochastic_rounding }
          (B_of a) a.grad_output.size1) slices st) = _
  rw [hs]

/-- Witness for C16: `two_table_args` (SUM, no weights, no stochastic rounding)
against `two_table_mean_args`, the same input under MEAN pooling with index weights
and stochastic rounding, for the rowwise-adaptive optimizer. -/
theorem fused_path_ignores_pooling_witness :
    (∀ (B grad_stride : Int) (r : SliceRun),
        kernel_call two_table_mean_args B grad_stride r
          = kernel_call two_table_args B grad_stride r)
    ∧ (call_runs two_table_mean_args [(0, 3), (3, 4)]).map
          (kernel_call two_table_mean_args (B_of two_table_args)
            two_table_args.grad_output.size1)
        = (call_runs two_table_args [(0, 3), (3, 4)]).map
            (kernel_call two_table_args (B_of two_table_args) two_table_args.grad_output.size1)
    ∧ split_embedding_backward_codegen_cpu "approx_rowwise_adagrad" no_update picky_kernel
          [(0, 3), (3, 4)] two_table_mean_args []
        = split_embedding_backward_codegen_cpu "approx_rowwise_adagrad" no_update picky_kernel
            [(0, 3), (3, 4)] two_table_args [] :=
  fused_path_ignores_pooling "approx_rowwise_adagrad" no_update picky_kernel [(0, 3), (3, 4)]
    two_table_args [] MEAN (some [1, 2, 3, 4, 5, 6]) true (by decide)

/-! ## C9: the fused path against the generic path -/

/-- The fused branch gives the same outcome whatever the pooling mode and the index
weights are. -/
theorem entry_fused_with_pooling {σ : Type} (optimizer : String) (upd : σ → UpdateSite → σ)
    (kernel : KernelCall → σ → Bool × σ) (slices : List (Int × Int)) (a : Args) (st : σ)
    (pooling_mode : Int) (indice_weights : Option (List ℚ))
    (hsel : select_path optimizer a.host_weights_type a.grad_output_type = .fused) :
    split_embedding_backward_codegen_cpu optimizer upd kernel slices
        (with_pooling a pooling_mode indice_weights) st
      = split_embedding_backward_codegen_cpu optimizer upd kernel slices a st := by
  have hsel2 : select_path optimizer
      (with_pooling a pooling_mode indice_weights).host_weights_type
      (with_pooling a pooling_mode indice_weights).grad_output_type = .fused := hsel
  have hs : fused_slice kernel (with_pooling a pooling_mode indice_weights)
      (B_of a) a.grad_output.size1 = fused_slice kernel a (B_of a) a.grad_output.size1 := by
    funext x y s
    unfold fused_slice
    exact fused_runs_congr kernel (with_pooling a pooling_mode indice_weights) a _ _
      (fun _ => rfl) _ s
  rw [entry_eq, entry_eq, hsel2, hsel]
  show (if T_of a ≤ 0 then Result.failed Err.check_T st
      else if B_of a ≤ 0 then Result.failed Err.check_B st
      else if a.host_weights_dim ≠ 1 then Result.failed Err.check_dim st
      else parallel_for (fused_slice kernel (with_pooling a pooling_mode indice_weights)
          (B_of a) a.grad_output.size1) slices st) = _
  rw [hs]

/-- C9. The fused path is meant to produce, within tolerance, what the generic
per-element path produces on the same input, for every pooling mode and with or
without index weights. The code, for every kernel, every per-scalar update rule and
every tolerance `tol`: when the fused path is selected and returns the buffers `sF`,
it returns the same `sF` under any other pooling mode and index weights; so wherever
the generic results of the two inputs differ at a weight scalar `k` by more than
`2 * tol`, the fused result is not within `tol` of both. -/
theorem fused_generic_divergence {σ : Type} (optimizer : String) (upd : σ → UpdateSite → σ)
    (kernel : KernelCall → σ → Bool × σ) (slices : List (Int × Int)) (a : Args) (st sF : σ)
    (wt : σ → Int → ℚ) (k : Int) (tol : ℚ)
    (pooling_mode : Int) (indice_weights : Option (List ℚ))
    (hsel : select_path optimizer a.host_weights_type a.grad_output_type = .fused)
    (hF : split_embedding_backward_codegen_cpu optimizer upd kernel slices a st = .done sF)
    (hdiff : 2 * tol
      < |wt (generic_loop upd a (T_of a) (B_of a) st) k
          - wt (generic_loop upd (with_pooling a pooling_mode indice_weights)
              (T_of a) (B_of a) st) k|) :
    split_embedding_backward_codegen_cpu optimizer upd kernel slices
        (with_pooling a pooling_mode indice_weights) st = .done sF
    ∧ ¬ (|wt sF k - wt (generic_loop upd a (T_of a) (B_of a) st) k| ≤ tol
        ∧ |wt sF k - wt (generic_loop upd (with_pooling a pooling_mode indice_weights)
              (T_of a) (B_of a) st) k| ≤ tol) := by
  constructor
  · rw [entry_fused_with_pooling optimizer upd kernel slices a st _ _ hsel]
    exact hF
  · rintro ⟨h1, h2⟩
    have h3 := abs_sub_le (wt (generic_loop upd a (T_of a) (B_of a) st) k) (wt sF k)
      (wt (generic_loop upd (with_pooling a pooling_mode indice_weights)
        (T_of a) (B_of a) st) k)
    rw [abs_sub_comm] at h1
    linarith

/-- Witness for C9: Scenario A with the gradient rows `[1, 2, 3, 4]` and `[5, 6, 7, 8]`,
the rowwise-adaptive optimizer, plain descent as the update rule, and a kernel that
leaves the arena as the generic loop does under SUM pooling. Under MEAN pooling the
fused path returns the same arena, with `-5` at offset 0, where the generic loop
gives `-5 / 2`. -/
theorem fused_generic_divergence_witness :
    (split_embedding_backward_codegen_cpu "approx_rowwise_adagrad" sgd_step sum_pooled_kernel
        [(0, 2)] (with_pooling (scenarioA sample_gradient) MEAN none) (fun _ => 0)
      = .done (generic_loop sgd_step (scenarioA sample_gradient) 1 2 (fun _ => 0))
    ∧ ¬ (|generic_loop sgd_step (scenarioA sample_gradient) 1 2 (fun _ => 0) 0
            - generic_loop sgd_step (scenarioA sample_gradient)
                (T_of (scenarioA sample_gradient)) (B_of (scenarioA sample_gradient))
                (fun _ => 0) 0| ≤ 1
        ∧ |generic_loop sgd_step (scenarioA sample_gradient) 1 2 (fun _ => 0) 0
            - generic_loop sgd_step (with_pooling (scenarioA sample_gradient) MEAN none)
                (T_of (scenarioA sample_gradient)) (B_of (scenarioA sample_gradient))
                (fun _ => 0) 0| ≤ 1))
    ∧ generic_loop sgd_step (scenarioA sample_gradient) 1 2 (fun _ => 0) 0 = -5
    ∧ generic_loop sgd_step (with_pooling (scenarioA sample_gradient) MEAN none) 1 2
        (fun _ => 0) 0 = -5 / 2 :=
  ⟨fused_generic_divergence "approx_rowwise_adagrad" sgd_step sum_pooled_kernel [(0, 2)]
      (scenarioA sample_gradient) (fun _ => 0)
      (generic_loop sgd_step (scenarioA sample_gradient) 1 2 (fun _ => 0))
      (fun w => w) 0 1 MEAN none (by decide) (by rfl) (by decide!),
    by decide!, by decide!⟩

end SplitEmbeddingBackward
